import Mathlib

/-!
Verification of the spreadsheet formula subsystem (address codec, dependency
graph, formula evaluator) against its natural-language specification.

The development is a shallow embedding of the TypeScript source:
* text is modelled as `List Char` (`Addr`); JS regular-expression matching is
  unfolded into explicit character-list scanning;
* JS numbers are modelled as exact rationals `ℚ` (the claims under
  consideration never depend on floating-point rounding);
* JS exceptions are modelled with `Except`; an exception object optionally
  carries a `code` property, exactly as in the source;
* recursions whose termination the source gets from runtime data (the
  evaluator's `visited` set, the traversal's `visited` set) carry a `fuel`
  parameter; running out of fuel is a distinct outcome (`Option` /
  `Failure.fuelOut`), never confused with a JS-level result, and every
  theorem runs with provably sufficient fuel.
-/

namespace Sheets

/-- Cell addresses (and all other program text) are lists of characters. -/
abbrev Addr := List Char

/-- Character class `[A-Z]` used by the source's regular expressions
(character codes 65–90). -/
def isUpperAZ (c : Char) : Bool := 65 ≤ c.toNat && c.toNat ≤ 90

/-- Character class `\d` (`[0-9]`) used by the source's regular expressions
(character codes 48–57). -/
def isDigit09 (c : Char) : Bool := 48 ≤ c.toNat && c.toNat ≤ 57

/-- `String.fromCharCode(48 + d)` for a digit value `0 ≤ d ≤ 9`, tabulated. -/
def digitChar (d : Nat) : Char :=
  ['0', '1', '2', '3', '4', '5', '6', '7', '8', '9'].getD d '0'

/-- `String.fromCharCode(m + 65)` for a letter index `0 ≤ m ≤ 25`, tabulated. -/
def letterChar (m : Nat) : Char :=
  ['A', 'B', 'C', 'D', 'E', 'F', 'G', 'H', 'I', 'J', 'K', 'L', 'M',
   'N', 'O', 'P', 'Q', 'R', 'S', 'T', 'U', 'V', 'W', 'X', 'Y', 'Z'].getD m 'A'

/-- One unfolding step of the decimal-printing loop; `fuel` only bounds the
recursion depth (the printed value strictly decreases, so `n` units always
suffice, see `natToDigits`). -/
def natToDigitsAux (fuel n : Nat) : List Char :=
  match fuel with
  | 0 => [digitChar (n % 10)]
  | fuel' + 1 =>
    if n < 10 then [digitChar (n % 10)]
    else natToDigitsAux fuel' (n / 10) ++ [digitChar (n % 10)]

/-- Decimal representation of a natural number, most significant digit first
(the integer case of JS number-to-string conversion). -/
def natToDigits (n : Nat) : List Char := natToDigitsAux n n

/-- `parseInt` on a string of decimal digits. -/
def digitsToNat (cs : List Char) : Nat :=
  cs.foldl (fun a c => a * 10 + (c.toNat - 48)) 0

/-- Decimal representation of an integer (sign then digits). -/
def intToStr (n : Int) : List Char :=
  if n < 0 then '-' :: natToDigits (-n).toNat else natToDigits n.toNat

/-- One unfolding step of the base-26 letter loop; `fuel` only bounds the
recursion depth (the loop value strictly decreases, so `col` units always
suffice, see `colToLetterNat`). -/
def colToLetterNatAux (fuel col : Nat) : List Char :=
  match fuel with
  | 0 => [letterChar (col % 26)]
  | fuel' + 1 =>
    if col < 26 then [letterChar (col % 26)]
    else colToLetterNatAux fuel' (col / 26 - 1) ++ [letterChar (col % 26)]

/-- Source `colToLetter`, unfolded from its `while (col >= 0)` loop for
nonnegative inputs: column index to bijective base-26 letters
(0 → A, 25 → Z, 26 → AA). -/
def colToLetterNat (col : Nat) : List Char := colToLetterNatAux col col

/-- Source `colToLetter` on a JS number: the loop body never runs for a
negative column, yielding the empty string. -/
def colToLetter (col : Int) : List Char :=
  if col < 0 then [] else colToLetterNat col.toNat

/-- Source `letterToCol`: letters to 0-based column index
(A → 0, Z → 25, AA → 26). -/
def letterToCol (letters : List Char) : Int :=
  (letters.foldl (fun col c => col * 26 + ((c.toNat : Int) - 65 + 1)) 0) - 1

/-- Validation regex `/^[A-Z]+[0-9]+$/` of source `toCellAddress`:
a nonempty run of uppercase letters followed by a nonempty run of digits
and nothing else. -/
def validCellAddr (s : List Char) : Bool :=
  let letters := s.takeWhile isUpperAZ
  let rest := s.dropWhile isUpperAZ
  !letters.isEmpty && !rest.isEmpty && rest.all isDigit09

/-- Source `toCellAddress`: returns the string when it matches
`/^[A-Z]+[0-9]+$/` and throws (`none`) otherwise. -/
def toCellAddress (s : List Char) : Option Addr :=
  if validCellAddr s then some s else none

/-- Result record of source `parseAddress`. -/
structure ParsedAddress where
  col : Int
  row : Int
  absoluteCol : Bool
  absoluteRow : Bool
  deriving Repr, DecidableEq

/-- Consume an optional leading `$` marker (the `(\$?)` regex groups). -/
def leadDollar (s : List Char) : Bool × List Char :=
  match s with
  | '$' :: rest => (true, rest)
  | _ => (false, s)

/-- Source `parseAddress`: match of `/^(\$?)([A-Z]+)(\$?)(\d+)$/` unfolded
into explicit scanning (the alternation is deterministic because `$` is
neither a letter nor a digit); `none` models the thrown `Invalid cell
address` error. -/
def parseAddress (s : List Char) : Option ParsedAddress :=
  let dollarCol := (leadDollar s).1
  let s1 := (leadDollar s).2
  let letters := s1.takeWhile isUpperAZ
  let s2 := s1.dropWhile isUpperAZ
  if letters.isEmpty then none
  else
    let dollarRow := (leadDollar s2).1
    let s3 := (leadDollar s2).2
    let digits := s3.takeWhile isDigit09
    let s4 := s3.dropWhile isDigit09
    if digits.isEmpty then none
    else if !s4.isEmpty then none
    else some ⟨letterToCol letters, (digitsToNat digits : Int) - 1,
               dollarCol, dollarRow⟩

/-- Source `formatAddress`: builds `colPart ++ letters ++ rowPart ++ digits`
and passes it through `toCellAddress`; `none` models the exception thrown by
`toCellAddress` when the built text does not match `/^[A-Z]+[0-9]+$/`. -/
def formatAddress (col row : Int) (absoluteCol : Bool := false)
    (absoluteRow : Bool := false) : Option Addr :=
  let colPart : List Char := if absoluteCol then ['$'] else []
  let rowPart : List Char := if absoluteRow then ['$'] else []
  toCellAddress (colPart ++ colToLetter col ++ rowPart ++ intToStr (row + 1))

/-- A `{ row?: number; col?: number }` insertion/deletion point. -/
structure RowColPoint where
  row : Option Int := none
  col : Option Int := none
  deriving Repr, DecidableEq

/-- The `{ col: boolean; row: boolean }` fixed-axis flags. -/
structure AbsFlags where
  col : Bool
  row : Bool
  deriving Repr, DecidableEq

/-- Source `adjustReference`: parse the address, apply the insertion shifts,
then the deletion shifts (each guarded by the fixed flag of its axis), and
re-format with the given fixed flags; `none` models an exception thrown by
`parseAddress` or by `formatAddress`'s internal validation. -/
def adjustReference (addr : Addr) (insertedAt deletedAt : RowColPoint)
    (isAbsolute : AbsFlags) : Option Addr :=
  match parseAddress addr with
  | none => none
  | some parsed =>
    let col0 := parsed.col
    let row0 := parsed.row
    let col1 :=
      match insertedAt.col with
      | some i => if !isAbsolute.col && col0 ≥ i then col0 + 1 else col0
      | none => col0
    let row1 :=
      match insertedAt.row with
      | some i => if !isAbsolute.row && row0 ≥ i then row0 + 1 else row0
      | none => row0
    let col2 :=
      match deletedAt.col with
      | some d => if !isAbsolute.col && col1 > d then col1 - 1 else col1
      | none => col1
    let row2 :=
      match deletedAt.row with
      | some d => if !isAbsolute.row && row1 > d then row1 - 1 else row1
      | none => row1
    formatAddress col2 row2 isAbsolute.col isAbsolute.row

/-! ### The formula engine (`src/lib/engine.ts`)

JS exceptions are `JsError` values (an optional `code` property plus a
`message`); the evaluator's recursion through cell references is bounded in
the source by the `visited` set, which Lean cannot see structurally, so every
recursive call consumes one unit of `fuel`.  Exhausting fuel is the distinct
outcome `Failure.fuelOut`, never confused with a JS-level result; theorems
below always run with provably sufficient fuel. -/

/-- A scalar `CellValue`: `number | string | boolean | null`. -/
inductive CellValue where
  | num (q : ℚ)
  | str (s : String)
  | bool (b : Bool)
  | null
  deriving Repr, DecidableEq

/-- The five error codes of the `ErrorCell` type. -/
inductive ErrCode where
  | CYCLE
  | REF
  | PARSE
  | DIV0
  | EVAL
  deriving Repr, DecidableEq

/-- The error code as the string used in `EvalResult.error.code`. -/
def errCodeStr : ErrCode → String
  | .CYCLE => "CYCLE"
  | .REF => "REF"
  | .PARSE => "PARSE"
  | .DIV0 => "DIV0"
  | .EVAL => "EVAL"

/-- The `BinaryOp.op` string union. -/
inductive BinOp where
  | add
  | sub
  | mul
  | div
  | pow
  | lt
  | le
  | gt
  | ge
  | eq
  | ne
  deriving Repr, DecidableEq

/-- The operator as written in formula text (used in error messages). -/
def opStr : BinOp → String
  | .add => "+"
  | .sub => "-"
  | .mul => "*"
  | .div => "/"
  | .pow => "^"
  | .lt => "<"
  | .le => "<="
  | .gt => ">"
  | .ge => ">="
  | .eq => "="
  | .ne => "<>"

/-- The `FormulaAst` tagged union. -/
inductive FormulaAst where
  | num (value : ℚ)
  | str (value : String)
  | bool (value : Bool)
  | ref (address : Addr) (absCol absRow : Bool)
  | range (rangeStart rangeEnd : Addr)
  | func (name : String) (args : List FormulaAst)
  | binary (op : BinOp) (left right : FormulaAst)
  | unary (operand : FormulaAst)
  deriving Repr

/-- The `Cell` discriminated union (literal / formula / error). -/
inductive Cell where
  | literal (value : CellValue)
  | formula (src : String) (ast : FormulaAst)
  | error (message : String) (code : ErrCode)
  deriving Repr

/-- The sparse `cells` mapping of a `Sheet` (`Record<CellAddress, Cell>`):
an association list with at most one entry per key. -/
abbrev SheetMap := List (Addr × Cell)

/-- JS object property lookup on the `cells` record. -/
def lookupCell (s : SheetMap) (a : Addr) : Option Cell :=
  (s.find? (fun p => p.1 = a)).map (·.2)

/-- A thrown JS `Error`, with the optional `code` property the engine
attaches to some errors. -/
structure JsError where
  code : Option String := none
  message : String
  deriving Repr, DecidableEq

/-- Why evaluation stopped: a JS exception, or the model ran out of fuel. -/
inductive Failure where
  | fuelOut
  | js (e : JsError)
  deriving Repr, DecidableEq

/-- The `visited` set of the evaluation context, in insertion order. -/
abbrev Visited := List Addr

/-- `Set.add`: insert at the back unless already present. -/
def addVisited (v : Visited) (a : Addr) : Visited :=
  if a ∈ v then v else v ++ [a]

/-- A scalar or (intermediate) range value produced by `evaluateAst`. -/
abbrev ValueOrRange := CellValue ⊕ List CellValue

/-- Evaluation result type: value and optional fuel-independent outcome. -/
abbrev Res (α : Type) := Except Failure (α × Visited)

/-- The `EvalResult` record: a scalar value plus an optional error
descriptor (`code`, `message`). -/
structure ErrInfo where
  code : String
  message : String
  deriving Repr, DecidableEq

/-- The `EvalResult` record returned by `evaluateCell`. -/
structure EvalResult where
  value : CellValue
  error : Option ErrInfo := none
  deriving Repr, DecidableEq

/-- JS `ToBoolean` on our scalar values (the implicit `condition &&` test). -/
def jsTruthy : CellValue → Bool
  | .null => false
  | .bool b => b
  | .num q => !(q = 0 : Bool)
  | .str s => !(s = "" : Bool)

/-- JS `String(v)` on our scalar values.  Integer-valued numbers print like
JS; non-integer rationals are printed as fractions (JS would print a decimal
expansion — no claim depends on that formatting). -/
def jsToString : CellValue → String
  | .num q =>
    if q.den = 1 then String.mk (intToStr q.num)
    else String.mk (intToStr q.num) ++ "/" ++ String.mk (natToDigits q.den)
  | .str s => s
  | .bool b => if b then "true" else "false"
  | .null => "null"

/-- JS `String(v)` on a scalar-or-array value (arrays join their elements
with commas, printing `null` elements as empty text). -/
def jsToStringVR : ValueOrRange → String
  | .inl v => jsToString v
  | .inr l =>
    String.intercalate ","
      (l.map (fun v => match v with | .null => "" | _ => jsToString v))

/-- JS `===` on two `evaluateAst` results.  Scalars compare by value; an
array (range) is compared by reference, and the two operands are always
distinct fresh arrays, so any comparison involving a range is `false`. -/
def jsStrictEqVR : ValueOrRange → ValueOrRange → Bool
  | .inl a, .inl b => a = b
  | _, _ => false

/-- Whether a value is a JS string (`typeof v === "string"`). -/
def isStrVR : ValueOrRange → Bool
  | .inl (.str _) => true
  | _ => false

/-- `Math.pow` restricted to our exact rationals: exact integer powers
(zero to a negative power is 0 here where JS gives `Infinity`; no claim
depends on that corner). -/
def jsPow (a b : ℚ) : ℚ := if b.den = 1 then a ^ b.num else 0

/-- `String.prototype.toUpperCase` on the ASCII function names in use
(`String.toUpper` itself is not definitionally reducible, so the character
map is spelled out). -/
def strToUpper (s : String) : String := String.mk (s.data.map Char.toUpper)

/-- `ensureScalar`: reject intermediate range values where a scalar is
required, with the source's message format. -/
def ensureScalar (context : String) : ValueOrRange → Except Failure CellValue
  | .inl v => .ok v
  | .inr _ => .error (.js ⟨none, context ++ ": ranges are not allowed here"⟩)

/-- Enumeration `lo, lo+1, …, hi` of a JS `for` loop over numbers. -/
def intRange (lo hi : Int) : List Int :=
  (List.range (hi - lo + 1).toNat).map (fun i => lo + i)

/-- Source `getCellsInRange` (`src/lib/grid.ts`): parse both corners, take
the min/max rectangle, and enumerate it row-major re-formatting each
address; thrown `parseAddress` errors carry the source's message. -/
def getCellsInRange (startAddr endAddr : Addr) :
    Except JsError (List Addr) :=
  match parseAddress startAddr with
  | none => .error ⟨none, "Invalid cell address: " ++ String.mk startAddr⟩
  | some ps =>
    match parseAddress endAddr with
    | none => .error ⟨none, "Invalid cell address: " ++ String.mk endAddr⟩
    | some pe =>
      let minCol := min ps.col pe.col
      let maxCol := max ps.col pe.col
      let minRow := min ps.row pe.row
      let maxRow := max ps.row pe.row
      let cells :=
        (intRange minRow maxRow).map (fun row =>
          (intRange minCol maxCol).map (fun col =>
            formatAddress col row false false))
      match cells.flatten.mapM id with
      | none => .error ⟨none, "Invalid cell address format"⟩
      | some addrs => .ok addrs

mutual

/-- Source `evaluateAst`: dispatch on the AST node kind.  The first
argument is the sheet's cell mapping; the `Nat` is fuel. -/
def evaluateAst (s : SheetMap) : Nat → FormulaAst → Visited → Res ValueOrRange
  | 0, _, _ => .error .fuelOut
  | f + 1, ast, visited =>
    match ast with
    | .num v => .ok (.inl (.num v), visited)
    | .str v => .ok (.inl (.str v), visited)
    | .bool v => .ok (.inl (.bool v), visited)
    | .ref address _ _ =>
      match evaluateCellRef s f address visited with
      | .ok (v, v') => .ok (.inl v, v')
      | .error e => .error e
    | .range a b =>
      match getCellsInRange a b with
      | .error e => .error (.js e)
      | .ok cells =>
        match evalRefs s f cells visited with
        | .ok (vs, v') => .ok (.inr vs, v')
        | .error e => .error e
    | .func name args =>
      match evaluateFunction s f name args visited with
      | .ok (v, v') => .ok (.inl v, v')
      | .error e => .error e
    | .binary op l r =>
      match evaluateBinaryOp s f op l r visited with
      | .ok (v, v') => .ok (.inl v, v')
      | .error e => .error e
    | .unary operand =>
      match evaluateAst s f operand visited with
      | .ok (.inl (.num q), v') => .ok (.inl (.num (-q)), v')
      | .ok (_, _) => .error (.js ⟨none, "Cannot negate non-number"⟩)
      | .error e => .error e

/-- Source `evaluateCellRef`: cycle check against `visited`, insert the
address, then dispatch on the referenced cell; the address is removed from
`visited` only on the way out of the formula branch. -/
def evaluateCellRef (s : SheetMap) : Nat → Addr → Visited → Res CellValue
  | 0, _, _ => .error .fuelOut
  | f + 1, address, visited =>
    if address ∈ visited then
      .error (.js ⟨some "CYCLE", "Circular reference detected"⟩)
    else
      let visited1 := addVisited visited address
      match lookupCell s address with
      | none => .ok (.null, visited1)
      | some (.literal v) => .ok (v, visited1)
      | some (.formula _ ast) =>
        match evaluateAst s f ast visited1 with
        | .ok (result, v2) =>
          match ensureScalar "Reference to cell evaluates to range" result with
          | .ok v => .ok (v, v2.erase address)
          | .error e => .error e
        | .error e => .error e
      | some (.error _ _) => .ok (.null, visited1)

/-- The `cells.map((addr) => this.evaluateCellRef(addr, ctx))` loop of the
range case, threading `visited` left to right. -/
def evalRefs (s : SheetMap) : Nat → List Addr → Visited → Res (List CellValue)
  | 0, _, _ => .error .fuelOut
  | _ + 1, [], visited => .ok ([], visited)
  | f + 1, a :: rest, visited =>
    match evaluateCellRef s f a visited with
    | .ok (v, v1) =>
      match evalRefs s f rest v1 with
      | .ok (vs, v2) => .ok (v :: vs, v2)
      | .error e => .error e
    | .error e => .error e

/-- The argument-evaluation loop shared by the aggregate functions:
evaluate each argument in order, threading `visited`. -/
def evalArgs (s : SheetMap) :
    Nat → List FormulaAst → Visited → Res (List ValueOrRange)
  | 0, _, _ => .error .fuelOut
  | _ + 1, [], visited => .ok ([], visited)
  | f + 1, a :: rest, visited =>
    match evaluateAst s f a visited with
    | .ok (v, v1) =>
      match evalArgs s f rest v1 with
      | .ok (vs, v2) => .ok (v :: vs, v2)
      | .error e => .error e
    | .error e => .error e

/-- Source `evaluateFunction`: uppercase the name and dispatch.  The
aggregates evaluate all arguments and then fold exactly as the source's
accumulation loops do (`MIN`/`MAX` track "no number seen yet" where the
source uses the `Infinity` sentinels, which no exact rational equals). -/
def evaluateFunction (s : SheetMap) :
    Nat → String → List FormulaAst → Visited → Res CellValue
  | 0, _, _, _ => .error .fuelOut
  | f + 1, name, args, visited =>
    let upperName := strToUpper name
    if upperName = "SUM" then
      match evalArgs s f args visited with
      | .ok (vals, v') =>
        .ok (.num (vals.foldl (fun sum v =>
          match v with
          | .inr l => l.foldl (fun a x =>
              match x with | .num q => a + q | _ => a) sum
          | .inl (.num q) => sum + q
          | .inl _ => sum) 0), v')
      | .error e => .error e
    else if upperName = "AVG" || upperName = "AVERAGE" then
      match evalArgs s f args visited with
      | .ok (vals, v') =>
        let acc := vals.foldl (fun (p : ℚ × Nat) v =>
          match v with
          | .inr l => l.foldl (fun (a : ℚ × Nat) x =>
              match x with | .num q => (a.1 + q, a.2 + 1) | _ => a) p
          | .inl (.num q) => (p.1 + q, p.2 + 1)
          | .inl _ => p) (0, 0)
        .ok (.num (if acc.2 > 0 then acc.1 / acc.2 else 0), v')
      | .error e => .error e
    else if upperName = "MIN" then
      match evalArgs s f args visited with
      | .ok (vals, v') =>
        let acc := vals.foldl (fun (m : Option ℚ) v =>
          match v with
          | .inr l => l.foldl (fun (a : Option ℚ) x =>
              match x, a with
              | .num q, none => some q
              | .num q, some m0 => if q < m0 then some q else some m0
              | _, a0 => a0) m
          | .inl (.num q) =>
            match m with
            | none => some q
            | some m0 => if q < m0 then some q else some m0
          | .inl _ => m) none
        .ok (.num (acc.getD 0), v')
      | .error e => .error e
    else if upperName = "MAX" then
      match evalArgs s f args visited with
      | .ok (vals, v') =>
        let acc := vals.foldl (fun (m : Option ℚ) v =>
          match v with
          | .inr l => l.foldl (fun (a : Option ℚ) x =>
              match x, a with
              | .num q, none => some q
              | .num q, some m0 => if q > m0 then some q else some m0
              | _, a0 => a0) m
          | .inl (.num q) =>
            match m with
            | none => some q
            | some m0 => if q > m0 then some q else some m0
          | .inl _ => m) none
        .ok (.num (acc.getD 0), v')
      | .error e => .error e
    else if upperName = "COUNT" then
      match evalArgs s f args visited with
      | .ok (vals, v') =>
        .ok (.num ((vals.foldl (fun (n : Nat) v =>
          match v with
          | .inr l => n + (l.filter (fun x => !(x = CellValue.null : Bool))).length
          | .inl .null => n
          | .inl _ => n + 1) 0 : Nat) : ℚ), v')
      | .error e => .error e
    else if upperName = "IF" then
      match args with
      | [c, a, b] =>
        match evaluateAst s f c visited with
        | .ok (cv, v1) =>
          match ensureScalar "IF condition" cv with
          | .ok condition =>
            let truthy := jsTruthy condition &&
              !(condition = CellValue.num 0 : Bool) &&
              !(condition = CellValue.str "" : Bool)
            match evaluateAst s f (if truthy then a else b) v1 with
            | .ok (bv, v2) =>
              match ensureScalar "IF branch result" bv with
              | .ok v => .ok (v, v2)
              | .error e => .error e
            | .error e => .error e
          | .error e => .error e
        | .error e => .error e
      | _ => .error (.js ⟨none, "IF requires exactly 3 arguments"⟩)
    else .error (.js ⟨none, "Unknown function: " ++ name⟩)

/-- Source `evaluateBinaryOp`: evaluate both operands eagerly, then the
number-number arithmetic/comparison block, then string concatenation for
`+`, then the `=`/`<>` fallback, else the `Invalid operation` throw. -/
def evaluateBinaryOp (s : SheetMap) :
    Nat → BinOp → FormulaAst → FormulaAst → Visited → Res CellValue
  | 0, _, _, _, _ => .error .fuelOut
  | f + 1, op, left, right, visited =>
    match evaluateAst s f left visited with
    | .error e => .error e
    | .ok (leftValue, v1) =>
      match evaluateAst s f right v1 with
      | .error e => .error e
      | .ok (rightValue, v2) =>
        match leftValue, rightValue with
        | .inl (.num a), .inl (.num b) =>
          match op with
          | .add => .ok (.num (a + b), v2)
          | .sub => .ok (.num (a - b), v2)
          | .mul => .ok (.num (a * b), v2)
          | .div =>
            if b = 0 then .error (.js ⟨none, "Division by zero"⟩)
            else .ok (.num (a / b), v2)
          | .pow => .ok (.num (jsPow a b), v2)
          | .lt => .ok (.bool (a < b), v2)
          | .le => .ok (.bool (a ≤ b), v2)
          | .gt => .ok (.bool (b < a), v2)
          | .ge => .ok (.bool (b ≤ a), v2)
          | .eq => .ok (.bool (a = b), v2)
          | .ne => .ok (.bool (!(a = b : Bool)), v2)
        | _, _ =>
          if op = BinOp.add && (isStrVR leftValue || isStrVR rightValue) then
            .ok (.str (jsToStringVR leftValue ++ jsToStringVR rightValue), v2)
          else
            match op with
            | .eq => .ok (.bool (jsStrictEqVR leftValue rightValue), v2)
            | .ne => .ok (.bool (!jsStrictEqVR leftValue rightValue), v2)
            | _ =>
              .error (.js ⟨none, "Invalid operation: " ++
                jsToStringVR leftValue ++ " " ++ opStr op ++ " " ++
                jsToStringVR rightValue⟩)

end

/-- Source `evaluateCell`: literal/error/missing cells answer directly; a
formula cell evaluates its AST with `visited = {address}` inside a
`try`/`catch` whose handler reads the error's `code` property, defaulting to
`"EVAL"`.  `none` is the out-of-fuel artifact of the model. -/
def evaluateCell (fuel : Nat) (s : SheetMap) (address : Addr) :
    Option EvalResult :=
  match lookupCell s address with
  | none => some ⟨.null, none⟩
  | some (.literal v) => some ⟨v, none⟩
  | some (.error msg code) => some ⟨.null, some ⟨errCodeStr code, msg⟩⟩
  | some (.formula _ ast) =>
    match evaluateAst s fuel ast [address] with
    | .ok (.inl v, _) => some ⟨v, none⟩
    | .ok (.inr _, _) =>
      some ⟨.null, some ⟨"EVAL", "Bare range cannot be a cell value"⟩⟩
    | .error (.js e) => some ⟨.null, some ⟨e.code.getD "EVAL", e.message⟩⟩
    | .error .fuelOut => none

/-! ### The dependency graph (`src/lib/engine.ts`, `DependencyGraph`)

`Map<CellAddress, Set<CellAddress>>` is an association list in insertion
order whose values are duplicate-free lists in insertion order. -/

/-- The two internal maps of `DependencyGraph`. -/
structure DependencyGraph where
  dependencies : List (Addr × List Addr)
  dependents : List (Addr × List Addr)

/-- `map.get(k) || new Set()`. -/
def mapGet (m : List (Addr × List Addr)) (k : Addr) : List Addr :=
  ((m.find? (fun p => p.1 = k)).map (·.2)).getD []

/-- `Set.add`: append unless present. -/
def setAdd (l : List Addr) (x : Addr) : List Addr :=
  if x ∈ l then l else l ++ [x]

/-- `if (!m.has(k)) m.set(k, new Set()); m.get(k).add(v)`: update the
entry in place, or append a fresh singleton entry. -/
def mapSetAdd (m : List (Addr × List Addr)) (k v : Addr) :
    List (Addr × List Addr) :=
  match m with
  | [] => [(k, [v])]
  | (k', s) :: rest =>
    if k' = k then (k', setAdd s v) :: rest
    else (k', s) :: mapSetAdd rest k v

/-- `m.get(k)?.delete(v)`: erase `v` from the entry's set if the entry
exists (the entry itself is kept, possibly empty). -/
def mapSetDelete (m : List (Addr × List Addr)) (k v : Addr) :
    List (Addr × List Addr) :=
  match m with
  | [] => []
  | (k', s) :: rest =>
    if k' = k then (k', s.erase v) :: rest
    else (k', s) :: mapSetDelete rest k v

/-- `Map.delete(k)`: remove the (unique) entry for `k`. -/
def mapDeleteKey (m : List (Addr × List Addr)) (k : Addr) :
    List (Addr × List Addr) :=
  match m with
  | [] => []
  | (k', s) :: rest =>
    if k' = k then rest else (k', s) :: mapDeleteKey rest k

/-- Source `addDependency`: record `from` reads `to` in both maps. -/
def addDependency (g : DependencyGraph) (fromCell toCell : Addr) :
    DependencyGraph :=
  { dependencies := mapSetAdd g.dependencies fromCell toCell,
    dependents := mapSetAdd g.dependents toCell fromCell }

/-- Source `removeDependencies`: for each recorded dependency of `cell`,
remove `cell` from that target's dependents set, then drop `cell`'s own
dependencies entry. -/
def removeDependencies (g : DependencyGraph) (cell : Addr) :
    DependencyGraph :=
  let deps := mapGet g.dependencies cell
  { dependencies := mapDeleteKey g.dependencies cell,
    dependents := deps.foldl (fun m dep => mapSetDelete m dep cell)
      g.dependents }

/-- Source `getDependencies`. -/
def getDependencies (g : DependencyGraph) (cell : Addr) : List Addr :=
  mapGet g.dependencies cell

/-- Source `getDependents`. -/
def getDependents (g : DependencyGraph) (cell : Addr) : List Addr :=
  mapGet g.dependents cell

mutual

/-- The recursive `visit` of source `getEvaluationOrder`: skip if visited,
else mark visited, visit all dependencies, then append the cell.  State is
`(visited, result)`; fuel only bounds the recursion depth of the model and
`getEvaluationOrder` below always supplies enough. -/
def visitFuel (g : DependencyGraph) :
    Nat → Addr → (List Addr × List Addr) → Option (List Addr × List Addr)
  | 0, _, _ => none
  | f + 1, cell, st =>
    if cell ∈ st.1 then some st
    else
      match visitList g f (getDependencies g cell) (st.1 ++ [cell], st.2) with
      | some st2 => some (st2.1, st2.2 ++ [cell])
      | none => none
  termination_by f _ _ => (f, 0)

/-- `deps.forEach((dep) => visit(dep))`, and also the top-level
`cells.forEach((cell) => visit(cell))` loop. -/
def visitList (g : DependencyGraph) :
    Nat → List Addr → (List Addr × List Addr) →
    Option (List Addr × List Addr)
  | _, [], st => some st
  | f, d :: ds, st =>
    match visitFuel g f d st with
    | some st1 => visitList g f ds st1
    | none => none
  termination_by f ds _ => (f, ds.length + 1)

end

/-- Every address the traversal can ever visit: the requested cells plus
every key and every edge target of the dependency map. -/
def graphUniverse (g : DependencyGraph) (cells : List Addr) : List Addr :=
  (cells ++ g.dependencies.map (·.1) ++
    (g.dependencies.map (·.2)).flatten).dedup

/-- A fuel bound that provably suffices for the whole traversal. -/
def graphFuel (g : DependencyGraph) (cells : List Addr) : Nat :=
  (graphUniverse g cells).length + 1

/-- Source `getEvaluationOrder`: run the `visit` loop over the requested
cells with empty initial state and return the accumulated result list. -/
def getEvaluationOrder (g : DependencyGraph) (cells : List Addr) :
    Option (List Addr) :=
  (visitList g (graphFuel g cells) cells ([], [])).map (·.2)

/-! ### Definitions used only to state the claims -/

/-- Spec wording for C9: the insertion shift applies when the insertion
point is at or before the index. -/
def shiftIns (pt : Option Int) (i : Int) : Int :=
  match pt with
  | some p => if p ≤ i then i + 1 else i
  | none => i

/-- Amended wording for C9: the deletion shift applies only when the
deletion point is strictly before the index. -/
def shiftDel (pt : Option Int) (i : Int) : Int :=
  match pt with
  | some p => if p < i then i - 1 else i
  | none => i

/-- The cells reachable from the requested set along `dependsOn` edges. -/
inductive Reach (g : DependencyGraph) (roots : List Addr) : Addr → Prop where
  | root {c : Addr} : c ∈ roots → Reach g roots c
  | step {a b : Addr} : Reach g roots a → b ∈ getDependencies g a →
      Reach g roots b

/-- A list is in topological order for `g`: every element's dependencies
all occur strictly before it. -/
def topoOK (g : DependencyGraph) (r : List Addr) : Prop :=
  ∀ i, i < r.length → ∀ d ∈ getDependencies g (r.getD i []), d ∈ r.take i

/-- Fuel-sufficiency induction statement for `visitFuel`: with more fuel
than there are unvisited universe members, a visit of a universe member
succeeds, only growing `visited` within the universe. -/
def SuccF (g : DependencyGraph) (U : List Addr) (f : Nat) : Prop :=
  ∀ cell v r, cell ∈ U → (U.filter (· ∉ v)).length < f →
    ∃ v' r', visitFuel g f cell (v, r) = some (v', r') ∧
      (∀ x ∈ v, x ∈ v') ∧ (∀ x ∈ v', x ∈ v ∨ x ∈ U)

/-- Fuel-sufficiency induction statement for `visitList`. -/
def SuccL (g : DependencyGraph) (U : List Addr) (f : Nat) : Prop :=
  ∀ ds v r, (∀ d ∈ ds, d ∈ U) → (U.filter (· ∉ v)).length < f →
    ∃ v' r', visitList g f ds (v, r) = some (v', r') ∧
      (∀ x ∈ v, x ∈ v') ∧ (∀ x ∈ v', x ∈ v ∨ x ∈ U)

/-- Correctness induction statement for `visitFuel` on graphs whose
reachable part is ranked (acyclic): the traversal's result list stays
duplicate-free and topologically ordered, the visited cell ends up in the
result, and the `visited` \ `result` difference (the recursion stack) never
grows across a completed call. -/
def InvF (g : DependencyGraph) (roots : List Addr) (rank : Addr → Nat)
    (f : Nat) : Prop :=
  ∀ cell v r v' r',
    visitFuel g f cell (v, r) = some (v', r') →
    Reach g roots cell →
    (∀ x ∈ v, Reach g roots x) →
    (∀ x ∈ r, x ∈ v) →
    r.Nodup →
    topoOK g r →
    (∀ x ∈ v, x ∉ r → rank cell < rank x) →
    (∃ Δ, r' = r ++ Δ ∧ ∀ x ∈ Δ, x ∉ v) ∧
    (∀ x ∈ v, x ∈ v') ∧
    (∀ x ∈ v', Reach g roots x) ∧
    (∀ x ∈ r', x ∈ v') ∧
    r'.Nodup ∧
    topoOK g r' ∧
    (∀ x ∈ v', x ∉ r' → x ∈ v ∧ x ∉ r) ∧
    cell ∈ r'

/-- Correctness induction statement for `visitList`. -/
def InvL (g : DependencyGraph) (roots : List Addr) (rank : Addr → Nat)
    (f : Nat) : Prop :=
  ∀ ds v r v' r',
    visitList g f ds (v, r) = some (v', r') →
    (∀ d ∈ ds, Reach g roots d) →
    (∀ x ∈ v, Reach g roots x) →
    (∀ x ∈ r, x ∈ v) →
    r.Nodup →
    topoOK g r →
    (∀ d ∈ ds, ∀ x ∈ v, x ∉ r → rank d < rank x) →
    (∃ Δ, r' = r ++ Δ ∧ ∀ x ∈ Δ, x ∉ v) ∧
    (∀ x ∈ v, x ∈ v') ∧
    (∀ x ∈ v', Reach g roots x) ∧
    (∀ x ∈ r', x ∈ v') ∧
    r'.Nodup ∧
    topoOK g r' ∧
    (∀ x ∈ v', x ∉ r' → x ∈ v ∧ x ∉ r) ∧
    (∀ d ∈ ds, d ∈ r')

/-- A `DependencyGraph` mutation: the two public mutators. -/
inductive GraphOp where
  | add (fromCell toCell : Addr)
  | remove (cell : Addr)

/-- Apply one mutation. -/
def applyOp (g : DependencyGraph) : GraphOp → DependencyGraph
  | .add fromCell toCell => addDependency g fromCell toCell
  | .remove cell => removeDependencies g cell

/-- The freshly constructed graph: two empty maps. -/
def emptyGraph : DependencyGraph := ⟨[], []⟩

/-- Run a finite call sequence against the freshly constructed graph. -/
def runOps (ops : List GraphOp) : DependencyGraph :=
  ops.foldl applyOp emptyGraph

/-- The keys of a `Map` model are pairwise distinct (as they are for a JS
`Map`). -/
def KeysNodup (m : List (Addr × List Addr)) : Prop := (m.map (·.1)).Nodup

/-- Every stored `Set` model is duplicate-free (as a JS `Set` is). -/
def ValsNodup (m : List (Addr × List Addr)) : Prop := ∀ p ∈ m, p.2.Nodup

/-- The representation invariant of the two maps, including the claimed
mutual-inverse property. -/
def GraphInv (g : DependencyGraph) : Prop :=
  KeysNodup g.dependencies ∧ KeysNodup g.dependents ∧
  ValsNodup g.dependencies ∧ ValsNodup g.dependents ∧
  ∀ a b, b ∈ mapGet g.dependencies a ↔ a ∈ mapGet g.dependents b

/-- C1's failing input: the spec's diamond (`A1` reads `B1` and `C1`, both
of which read the literal cell `D1`) — an acyclic reference graph. -/
def diamondSheet : SheetMap :=
  [(['A', '1'], .formula "=B1+C1"
      (.binary .add (.ref ['B', '1'] false false) (.ref ['C', '1'] false false))),
   (['B', '1'], .formula "=D1" (.ref ['D', '1'] false false)),
   (['C', '1'], .formula "=D1" (.ref ['D', '1'] false false)),
   (['D', '1'], .literal (.num 1))]

/-- C2's failing input: a sheet whose only cell holds `=1/0`. -/
def divZeroSheet : SheetMap :=
  [(['A', '1'], .formula "=1/0" (.binary .div (.num 1) (.num 0)))]

/-- C6's counterexample input: `=IF(1>2,1,2)` — the condition evaluates to
the boolean `false`, which is neither null, nor 0, nor the empty string. -/
def ifFalseSheet : SheetMap :=
  [(['A', '1'], .formula "=IF(1>2,1,2)"
      (.func "IF" [.binary .gt (.num 1) (.num 2), .num 1, .num 2]))]

/-- C3's witness input: `A1 = "=B1"`, `B1 = "=A1"`. -/
def mutualSheet : SheetMap :=
  [(['A', '1'], .formula "=B1" (.ref ['B', '1'] false false)),
   (['B', '1'], .formula "=A1" (.ref ['A', '1'] false false))]

/-- C10's witness input: `A1` is a stored error cell, `B1 = "=A1"`. -/
def errorRefSheet : SheetMap :=
  [(['A', '1'], .error "bad" .PARSE),
   (['B', '1'], .formula "=A1" (.ref ['A', '1'] false false))]

/-! ### Lemmas about the address codec -/

theorem digitChar_spec : ∀ d, d < 10 →
    isDigit09 (digitChar d) = true ∧ isUpperAZ (digitChar d) = false ∧
    (digitChar d).toNat = 48 + d := by decide

theorem letterChar_spec : ∀ m, m < 26 →
    isUpperAZ (letterChar m) = true ∧ (letterChar m).toNat = m + 65 := by decide

theorem isDigit09_not_upper {c : Char} (h : isDigit09 c = true) :
    isUpperAZ c = false := by
  simp only [isDigit09, isUpperAZ, Bool.and_eq_true, decide_eq_true_eq] at h ⊢
  simp only [Bool.and_eq_false_iff, decide_eq_false_iff_not]
  omega

theorem upper_ne_dollar {c : Char} (h : isUpperAZ c = true) : c ≠ '$' := by
  intro he
  rw [he] at h
  exact absurd h (by decide)

theorem digit_ne_dollar {c : Char} (h : isDigit09 c = true) : c ≠ '$' := by
  intro he
  rw [he] at h
  exact absurd h (by decide)

theorem natToDigitsAux_ne_nil (fuel n : Nat) :
    natToDigitsAux fuel n ≠ [] := by
  cases fuel with
  | zero => simp [natToDigitsAux]
  | succ f =>
    rw [natToDigitsAux]
    split <;> simp

theorem natToDigits_ne_nil (n : Nat) : natToDigits n ≠ [] :=
  natToDigitsAux_ne_nil n n

theorem natToDigitsAux_all_digit (fuel : Nat) :
    ∀ n, ∀ c ∈ natToDigitsAux fuel n, isDigit09 c = true := by
  induction fuel with
  | zero =>
    intro n c hc
    simp only [natToDigitsAux, List.mem_singleton] at hc
    subst hc
    exact (digitChar_spec (n % 10) (Nat.mod_lt n (by omega))).1
  | succ f ih =>
    intro n c hc
    rw [natToDigitsAux] at hc
    split at hc
    · simp only [List.mem_singleton] at hc
      subst hc
      exact (digitChar_spec (n % 10) (Nat.mod_lt n (by omega))).1
    · rcases List.mem_append.1 hc with h1 | h2
      · exact ih (n / 10) c h1
      · simp only [List.mem_singleton] at h2
        subst h2
        exact (digitChar_spec (n % 10) (Nat.mod_lt n (by omega))).1

theorem natToDigits_all_digit (n : Nat) :
    ∀ c ∈ natToDigits n, isDigit09 c = true :=
  natToDigitsAux_all_digit n n

theorem digitsToNat_natToDigitsAux (fuel : Nat) :
    ∀ n, n ≤ fuel → digitsToNat (natToDigitsAux fuel n) = n := by
  induction fuel with
  | zero =>
    intro n hn
    have : n = 0 := by omega
    subst this
    simp [natToDigitsAux, digitsToNat]
    decide
  | succ f ih =>
    intro n hn
    rw [natToDigitsAux]
    split
    · simp only [digitsToNat, List.foldl_cons, List.foldl_nil]
      rw [(digitChar_spec (n % 10) (Nat.mod_lt n (by omega))).2.2]
      omega
    · have hdiv : n / 10 < n := Nat.div_lt_self (by omega) (by omega)
      have hih := ih (n / 10) (by omega)
      simp only [digitsToNat] at hih ⊢
      rw [List.foldl_append, hih]
      simp only [List.foldl_cons, List.foldl_nil]
      rw [(digitChar_spec (n % 10) (Nat.mod_lt n (by omega))).2.2]
      omega

theorem digitsToNat_natToDigits (n : Nat) :
    digitsToNat (natToDigits n) = n :=
  digitsToNat_natToDigitsAux n n (Nat.le_refl n)

theorem colToLetterNatAux_ne_nil (fuel n : Nat) :
    colToLetterNatAux fuel n ≠ [] := by
  cases fuel with
  | zero => simp [colToLetterNatAux]
  | succ f =>
    rw [colToLetterNatAux]
    split <;> simp

theorem colToLetterNat_ne_nil (n : Nat) : colToLetterNat n ≠ [] :=
  colToLetterNatAux_ne_nil n n

theorem colToLetterNatAux_all_upper (fuel : Nat) :
    ∀ n, ∀ c ∈ colToLetterNatAux fuel n, isUpperAZ c = true := by
  induction fuel with
  | zero =>
    intro n c hc
    simp only [colToLetterNatAux, List.mem_singleton] at hc
    subst hc
    exact (letterChar_spec (n % 26) (Nat.mod_lt n (by omega))).1
  | succ f ih =>
    intro n c hc
    rw [colToLetterNatAux] at hc
    split at hc
    · simp only [List.mem_singleton] at hc
      subst hc
      exact (letterChar_spec (n % 26) (Nat.mod_lt n (by omega))).1
    · rcases List.mem_append.1 hc with h1 | h2
      · exact ih _ c h1
      · simp only [List.mem_singleton] at h2
        subst h2
        exact (letterChar_spec (n % 26) (Nat.mod_lt n (by omega))).1

theorem colToLetterNat_all_upper (n : Nat) :
    ∀ c ∈ colToLetterNat n, isUpperAZ c = true :=
  colToLetterNatAux_all_upper n n

theorem colToLetterNatAux_fold (fuel : Nat) :
    ∀ n, n ≤ fuel →
      ((colToLetterNatAux fuel n).foldl
        (fun col c => col * 26 + ((c.toNat : Int) - 65 + 1)) 0) =
        (n : Int) + 1 := by
  induction fuel with
  | zero =>
    intro n hn
    have : n = 0 := by omega
    subst this
    simp only [colToLetterNatAux, List.foldl_cons, List.foldl_nil]
    rw [(letterChar_spec (0 % 26) (by omega)).2]
    decide
  | succ f ih =>
    intro n hn
    rw [colToLetterNatAux]
    split
    · rename_i hlt
      simp only [List.foldl_cons, List.foldl_nil]
      rw [(letterChar_spec (n % 26) (Nat.mod_lt n (by omega))).2]
      have : n % 26 = n := Nat.mod_eq_of_lt hlt
      push_cast [this]
      ring
    · rename_i hge
      have hdiv : n / 26 < n := Nat.div_lt_self (by omega) (by omega)
      rw [List.foldl_append, ih (n / 26 - 1) (by omega)]
      simp only [List.foldl_cons, List.foldl_nil]
      rw [(letterChar_spec (n % 26) (Nat.mod_lt n (by omega))).2]
      have hdm : 26 * (n / 26) + n % 26 = n := Nat.div_add_mod n 26
      have h1 : 1 ≤ n / 26 := Nat.one_le_div_iff (by omega) |>.2 (by omega)
      push_cast [Nat.sub_add_cancel h1]
      push_cast at hdm
      omega

theorem letterToCol_colToLetterNat (n : Nat) :
    letterToCol (colToLetterNat n) = (n : Int) := by
  rw [letterToCol, colToLetterNat, colToLetterNatAux_fold n n (Nat.le_refl n)]
  ring

theorem takeWhile_append_all {p : Char → Bool} {l1 l2 : List Char}
    (h : ∀ c ∈ l1, p c = true) :
    (l1 ++ l2).takeWhile p = l1 ++ l2.takeWhile p := by
  induction l1 with
  | nil => simp
  | cons c cs ih =>
    simp only [List.cons_append, List.takeWhile_cons, h c (by simp)]
    rw [ih (fun x hx => h x (by simp [hx]))]
    simp

theorem dropWhile_append_all {p : Char → Bool} {l1 l2 : List Char}
    (h : ∀ c ∈ l1, p c = true) :
    (l1 ++ l2).dropWhile p = l2.dropWhile p := by
  induction l1 with
  | nil => simp
  | cons c cs ih =>
    simp only [List.cons_append, List.dropWhile_cons, h c (by simp)]
    exact ih (fun x hx => h x (by simp [hx]))

theorem takeWhile_all {p : Char → Bool} {l : List Char}
    (h : ∀ c ∈ l, p c = true) : l.takeWhile p = l := by
  induction l with
  | nil => rfl
  | cons c cs ih =>
    simp only [List.takeWhile_cons, h c (by simp)]
    rw [ih (fun x hx => h x (by simp [hx]))]
    simp

theorem dropWhile_all {p : Char → Bool} {l : List Char}
    (h : ∀ c ∈ l, p c = true) : l.dropWhile p = [] := by
  induction l with
  | nil => rfl
  | cons c cs ih =>
    simp only [List.dropWhile_cons, h c (by simp)]
    exact ih (fun x hx => h x (by simp [hx]))

theorem takeWhile_cons_false {p : Char → Bool} {c : Char} {cs : List Char}
    (h : p c = false) : (c :: cs).takeWhile p = [] := by
  simp [List.takeWhile_cons, h]

theorem dropWhile_cons_false {p : Char → Bool} {c : Char} {cs : List Char}
    (h : p c = false) : (c :: cs).dropWhile p = c :: cs := by
  simp [List.dropWhile_cons, h]

theorem leadDollar_cons_ne {c : Char} {cs : List Char} (h : c ≠ '$') :
    leadDollar (c :: cs) = (false, c :: cs) := by
  unfold leadDollar
  split
  · rename_i heq
    rw [List.cons.injEq] at heq
    exact absurd heq.1 h
  · rfl

theorem validCellAddr_LD {L D : List Char} (hL : L ≠ [])
    (hLa : ∀ c ∈ L, isUpperAZ c = true) (hD : D ≠ [])
    (hDa : ∀ c ∈ D, isDigit09 c = true) :
    validCellAddr (L ++ D) = true := by
  rcases D with _ | ⟨d, ds⟩
  · exact absurd rfl hD
  unfold validCellAddr
  rw [takeWhile_append_all hLa, dropWhile_append_all hLa,
    takeWhile_cons_false (isDigit09_not_upper (hDa d (by simp))),
    dropWhile_cons_false (isDigit09_not_upper (hDa d (by simp)))]
  rcases L with _ | ⟨a, as⟩
  · exact absurd rfl hL
  simp only [List.append_nil, List.cons_append, List.isEmpty_cons,
    Bool.not_false, Bool.true_and, List.all_eq_true]
  exact hDa

theorem formatAddress_nonneg (ci ri : Int) (hc : 0 ≤ ci) (hr : 0 ≤ ri) :
    formatAddress ci ri false false =
      some (colToLetterNat ci.toNat ++ natToDigits (ri + 1).toNat) := by
  unfold formatAddress colToLetter intToStr toCellAddress
  rw [if_neg (by omega : ¬ ci < 0), if_neg (by omega : ¬ ri + 1 < 0)]
  simp only [Bool.false_eq_true, if_false, List.nil_append, List.append_nil]
  rw [if_pos (validCellAddr_LD (colToLetterNat_ne_nil _)
    (colToLetterNat_all_upper _) (natToDigits_ne_nil _)
    (natToDigits_all_digit _))]

theorem parseAddress_LD (ci ri : Int) (hc : 0 ≤ ci) (hr : 0 ≤ ri) :
    parseAddress (colToLetterNat ci.toNat ++ natToDigits (ri + 1).toNat) =
      some ⟨ci, ri, false, false⟩ := by
  have hLu := colToLetterNat_all_upper ci.toNat
  have hDd := natToDigits_all_digit (ri + 1).toNat
  rcases hL : colToLetterNat ci.toNat with _ | ⟨a, as⟩
  · exact absurd hL (colToLetterNat_ne_nil _)
  rcases hD : natToDigits (ri + 1).toNat with _ | ⟨d, ds⟩
  · exact absurd hD (natToDigits_ne_nil _)
  rw [hL] at hLu
  rw [hD] at hDd
  have ha : isUpperAZ a = true := hLu a (by simp)
  have hd : isDigit09 d = true := hDd d (by simp)
  unfold parseAddress
  rw [List.cons_append, leadDollar_cons_ne (upper_ne_dollar ha)]
  dsimp only
  rw [← List.cons_append,
    @takeWhile_append_all isUpperAZ (a :: as) (d :: ds) hLu,
    dropWhile_append_all hLu,
    takeWhile_cons_false (isDigit09_not_upper hd),
    dropWhile_cons_false (isDigit09_not_upper hd),
    List.append_nil]
  rw [leadDollar_cons_ne (digit_ne_dollar hd)]
  dsimp only
  rw [takeWhile_all hDd, dropWhile_all hDd]
  rw [if_neg (by simp), if_neg (by simp), if_neg (by simp)]
  rw [← hL, ← hD, letterToCol_colToLetterNat, digitsToNat_natToDigits]
  have h2 : (((ri + 1).toNat : Nat) : Int) = ri + 1 := Int.toNat_of_nonneg (by omega)
  congr 1
  rw [ParsedAddress.mk.injEq]
  exact ⟨Int.toNat_of_nonneg hc, by omega, rfl, rfl⟩

/-- Both halves of the non-fixed round trip, for arbitrary nonnegative
column and row indices. -/
theorem format_parse_roundtrip (ci ri : Int) (hc : 0 ≤ ci) (hr : 0 ≤ ri) :
    ∃ s, formatAddress ci ri false false = some s ∧
      parseAddress s = some ⟨ci, ri, false, false⟩ :=
  ⟨_, formatAddress_nonneg ci ri hc hr, parseAddress_LD ci ri hc hr⟩

theorem validCellAddr_dollar (l : List Char) :
    validCellAddr ('$' :: l) = false := by
  unfold validCellAddr
  rw [takeWhile_cons_false (by decide)]
  simp

theorem validCellAddr_upper_dollar {L : List Char} (rest : List Char)
    (hLa : ∀ c ∈ L, isUpperAZ c = true) :
    validCellAddr (L ++ '$' :: rest) = false := by
  have hdol : isDigit09 '$' = false := by decide
  unfold validCellAddr
  rw [takeWhile_append_all hLa, dropWhile_append_all hLa,
    takeWhile_cons_false (by decide), dropWhile_cons_false (by decide)]
  simp [List.all_cons, hdol]

theorem formatAddress_absCol_none (x y : Int) (fr : Bool) :
    formatAddress x y true fr = none := by
  simp [formatAddress, toCellAddress, validCellAddr_dollar,
    List.append_assoc]

theorem formatAddress_absRow_none (x y : Int) (hx : 0 ≤ x) :
    formatAddress x y false true = none := by
  have h1 : ∀ rest, validCellAddr (colToLetterNat x.toNat ++ '$' :: rest) =
      false :=
    fun rest => validCellAddr_upper_dollar rest (colToLetterNat_all_upper _)
  simp [formatAddress, toCellAddress, colToLetter,
    (show ¬ x < 0 by omega), List.append_assoc, h1]

theorem formatAddress_congrArgs {a b a' b' : Int} (h1 : a = a')
    (h2 : b = b') :
    formatAddress a b false false = formatAddress a' b' false false := by
  rw [h1, h2]

/-- Claim C4: for all column and row indices with `0 ≤ col < 1000` and
`0 ≤ row < 1000`, `parseAddress (formatAddress col row)` succeeds and
returns exactly `col` and `row` with both fixed flags false: the bijective
base-26 column encoding and the 1-based row encoding round-trip
losslessly. -/
theorem C4_address_roundtrip (col row : Int) (h0 : 0 ≤ col)
    (_h1 : col < 1000) (h2 : 0 ≤ row) (_h3 : row < 1000) :
    ∃ s, formatAddress col row false false = some s ∧
      parseAddress s = some ⟨col, row, false, false⟩ :=
  format_parse_roundtrip col row h0 h2

theorem C4_address_roundtrip_witness :
    ∃ s, formatAddress 702 999 false false = some s ∧
      parseAddress s = some ⟨702, 999, false, false⟩ :=
  C4_address_roundtrip 702 999 (by norm_num) (by norm_num) (by norm_num)
    (by norm_num)

/-- Claim C5 (code bug): `formatAddress` with a fixed flag set builds a
`'$'`-marked text, but its own final `toCellAddress` validation
(`/^[A-Z]+[0-9]+$/`) rejects any `'$'`, so the call throws instead of
returning the grammar's `('$')? LETTERS ('$')? DIGITS` form — contrary to
the claim that it never fails when a fixed flag is set. -/
theorem C5_formatAddress_fixed_flag_fails :
    formatAddress 0 0 true false = none ∧
    formatAddress 0 0 false true = none ∧
    formatAddress 0 0 true true = none := by decide

/-- Claim C9 counterexample: with a deletion point equal to the column
index (address `B1`, column 1 deleted) the code leaves the reference at
`B1` where the claim's "at or before that index" requires a shift to `A1`;
and with the column axis fixed the operation fails (`none`) where the claim
requires an adjusted address for every combination of fixed flags. -/
theorem C9_adjustReference_counterexample :
    adjustReference ['B', '1'] ⟨none, none⟩ ⟨none, some 1⟩ ⟨false, false⟩ =
      some ['B', '1'] ∧
    adjustReference ['A', '1'] ⟨none, none⟩ ⟨none, none⟩ ⟨true, false⟩ =
      none := by decide

/-- Claim C9 (amended): for every address with `col, row ≥ 0` and
nonnegative insertion/deletion points, `adjustReference` shifts the column
(resp. row) by +1 when an insertion point is at or before that index and by
−1 when a deletion point is strictly before that index, and returns the
adjusted address, provided both fixed flags are false; when either fixed
flag is set, re-formatting the `'$'`-marked address fails its own
validation, so the operation returns nothing (and in particular never
shifts a fixed axis). -/
theorem C9_adjustReference_amended (c r : Int) (hc : 0 ≤ c) (hr : 0 ≤ r)
    (insertedAt deletedAt : RowColPoint) (flags : AbsFlags)
    (hic : 0 ≤ insertedAt.col.getD 0) (hir : 0 ≤ insertedAt.row.getD 0)
    (hdc : 0 ≤ deletedAt.col.getD 0) (hdr : 0 ≤ deletedAt.row.getD 0) :
    ∃ s, formatAddress c r false false = some s ∧
      adjustReference s insertedAt deletedAt flags =
        (if flags.col || flags.row then none
         else formatAddress
           (shiftDel deletedAt.col (shiftIns insertedAt.col c))
           (shiftDel deletedAt.row (shiftIns insertedAt.row r))
           false false) := by
  refine ⟨_, formatAddress_nonneg c r hc hr, ?_⟩
  unfold adjustReference
  rw [parseAddress_LD c r hc hr]
  rcases insertedAt with ⟨ir, ic⟩
  rcases deletedAt with ⟨dr, dc⟩
  rcases flags with ⟨fc, frow⟩
  simp only at hic hir hdc hdr
  dsimp only
  cases fc with
  | true =>
    simp only [Bool.true_or, if_true]
    exact formatAddress_absCol_none _ _ _
  | false =>
    cases frow with
    | true =>
      simp only [Bool.false_or, if_true]
      apply formatAddress_absRow_none
      rcases ic with _ | i <;> rcases dc with _ | d <;>
        (try simp only [Option.getD_none, Option.getD_some] at hic hdc) <;>
        (try dsimp only) <;>
        (try simp only [Bool.not_false, Bool.true_and, decide_eq_true_eq,
          ge_iff_le, gt_iff_lt]) <;>
        (try split_ifs) <;> omega
    | false =>
      simp only [Bool.or_self, Bool.false_eq_true, if_false]
      rcases ic with _ | i <;> rcases dc with _ | d <;>
        rcases ir with _ | i' <;> rcases dr with _ | d' <;>
        (try simp only [Option.getD_none, Option.getD_some] at hic hir hdc hdr) <;>
        (try dsimp only) <;>
        (try simp only [shiftIns, shiftDel, Bool.not_false, Bool.true_and,
          decide_eq_true_eq, ge_iff_le, gt_iff_lt])

/-! ### Lemmas about the evaluator -/

theorem evaluateCellRef_cycle (s : SheetMap) (f : Nat) (addr : Addr)
    (v : Visited) (h : addr ∈ v) :
    evaluateCellRef s (f + 1) addr v =
      .error (.js ⟨some "CYCLE", "Circular reference detected"⟩) := by
  simp only [evaluateCellRef, if_pos h]

theorem evaluateCellRef_formula_error (s : SheetMap) (f : Nat) (addr : Addr)
    (v : Visited) (src : String) (ast : FormulaAst) (e : Failure)
    (h : addr ∉ v) (hcell : lookupCell s addr = some (.formula src ast))
    (heval : evaluateAst s f ast (addVisited v addr) = .error e) :
    evaluateCellRef s (f + 1) addr v = .error e := by
  simp only [evaluateCellRef, if_neg h, hcell, heval]

theorem evaluateCellRef_formula_ok (s : SheetMap) (f : Nat) (addr : Addr)
    (v : Visited) (src : String) (ast : FormulaAst) (val : CellValue)
    (v2 : Visited) (h : addr ∉ v)
    (hcell : lookupCell s addr = some (.formula src ast))
    (heval : evaluateAst s f ast (addVisited v addr) = .ok (.inl val, v2)) :
    evaluateCellRef s (f + 1) addr v = .ok (val, v2.erase addr) := by
  simp only [evaluateCellRef, if_neg h, hcell, heval, ensureScalar]

theorem evaluateCellRef_error_cell (s : SheetMap) (f : Nat) (addr : Addr)
    (v : Visited) (msg : String) (code : ErrCode) (h : addr ∉ v)
    (hcell : lookupCell s addr = some (.error msg code)) :
    evaluateCellRef s (f + 1) addr v = .ok (.null, addVisited v addr) := by
  simp only [evaluateCellRef, if_neg h, hcell]

theorem evaluateAst_ref_error (s : SheetMap) (f : Nat) (addr : Addr)
    (v : Visited) (acol arow : Bool) (e : Failure)
    (h : evaluateCellRef s f addr v = .error e) :
    evaluateAst s (f + 1) (.ref addr acol arow) v = .error e := by
  simp only [evaluateAst, h]

theorem evaluateAst_ref_ok (s : SheetMap) (f : Nat) (addr : Addr)
    (v : Visited) (acol arow : Bool) (val : CellValue) (v2 : Visited)
    (h : evaluateCellRef s f addr v = .ok (val, v2)) :
    evaluateAst s (f + 1) (.ref addr acol arow) v = .ok (.inl val, v2) := by
  simp only [evaluateAst, h]

theorem evaluateAst_func_error (s : SheetMap) (f : Nat) (name : String)
    (args : List FormulaAst) (v : Visited) (e : Failure)
    (h : evaluateFunction s f name args v = .error e) :
    evaluateAst s (f + 1) (.func name args) v = .error e := by
  simp only [evaluateAst, h]

theorem evaluateCell_formula_jsError (fuel : Nat) (s : SheetMap)
    (addr : Addr) (src : String) (ast : FormulaAst) (je : JsError)
    (hcell : lookupCell s addr = some (.formula src ast))
    (heval : evaluateAst s fuel ast [addr] = .error (.js je)) :
    evaluateCell fuel s addr =
      some ⟨.null, some ⟨je.code.getD "EVAL", je.message⟩⟩ := by
  simp only [evaluateCell, hcell, heval]

theorem evaluateCell_formula_ok (fuel : Nat) (s : SheetMap) (addr : Addr)
    (src : String) (ast : FormulaAst) (val : CellValue) (vis : Visited)
    (hcell : lookupCell s addr = some (.formula src ast))
    (heval : evaluateAst s fuel ast [addr] = .ok (.inl val, vis)) :
    evaluateCell fuel s addr = some ⟨val, none⟩ := by
  simp only [evaluateCell, hcell, heval]

/-- Claim C1 (code bug): on the spec's own diamond — `A1` reads `B1` and
`C1`, which both read the literal `D1`, an acyclic graph — `evaluateCell`
reports a `CYCLE` error: `evaluateCellRef` removes an address from
`visited` only on the way out of its formula branch, so a literal (or
error, or empty) shared cell stays in `visited` after the first path and
the second path is falsely flagged as a cycle. -/
theorem C1_diamond_false_cycle :
    evaluateCell 10 diamondSheet ['A', '1'] =
      some ⟨.null, some ⟨"CYCLE", "Circular reference detected"⟩⟩ := by
  decide

/-- Claim C2 (code bug): `=1/0` evaluates to an error whose code is
`"EVAL"`, not `"DIV0"`: the `Division by zero` error is thrown without a
`code` property, so `evaluateCell`'s handler falls back to its `"EVAL"`
default. -/
theorem C2_div_zero_eval_not_div0 :
    evaluateCell 10 divZeroSheet ['A', '1'] =
      some ⟨.null, some ⟨"EVAL", "Division by zero"⟩⟩ := by
  decide

/-- Claim C3: whenever cell `A` holds a formula that is a reference to cell
`B` and `B` holds a formula that is a reference to `A`, evaluating either
cell returns an `EvalResult` with error code `CYCLE` and a null value — the
thrown cycle error is caught at the `evaluateCell` boundary, so nothing
escapes the engine (the result is an ordinary value for every fuel
reserve). -/
theorem C3_mutual_cycle (f : Nat) (s : SheetMap) (A B : Addr) (hAB : A ≠ B)
    (srcA srcB : String) (ac ar bc br : Bool)
    (hA : lookupCell s A = some (.formula srcA (.ref B bc br)))
    (hB : lookupCell s B = some (.formula srcB (.ref A ac ar))) :
    evaluateCell (f + 4) s A =
      some ⟨.null, some ⟨"CYCLE", "Circular reference detected"⟩⟩ ∧
    evaluateCell (f + 4) s B =
      some ⟨.null, some ⟨"CYCLE", "Circular reference detected"⟩⟩ := by
  have hBA : B ≠ A := fun h => hAB h.symm
  constructor
  · have hmem : B ∉ [A] := by simp [hBA]
    have hin : A ∈ addVisited [A] B := by
      unfold addVisited
      rw [if_neg hmem]
      simp
    have h1 := evaluateCellRef_cycle s f A (addVisited [A] B) hin
    have h2 := evaluateAst_ref_error s (f + 1) A (addVisited [A] B) ac ar _ h1
    have h3 := evaluateCellRef_formula_error s (f + 2) B [A] srcB
      (.ref A ac ar) _ hmem hB h2
    have h4 := evaluateAst_ref_error s (f + 3) B [A] bc br _ h3
    exact evaluateCell_formula_jsError (f + 4) s A srcA _
      ⟨some "CYCLE", "Circular reference detected"⟩ hA h4
  · have hmem : A ∉ [B] := by simp [hAB]
    have hin : B ∈ addVisited [B] A := by
      unfold addVisited
      rw [if_neg hmem]
      simp
    have h1 := evaluateCellRef_cycle s f B (addVisited [B] A) hin
    have h2 := evaluateAst_ref_error s (f + 1) B (addVisited [B] A) bc br _ h1
    have h3 := evaluateCellRef_formula_error s (f + 2) A [B] srcA
      (.ref B bc br) _ hmem hA h2
    have h4 := evaluateAst_ref_error s (f + 3) A [B] ac ar _ h3
    exact evaluateCell_formula_jsError (f + 4) s B srcB _
      ⟨some "CYCLE", "Circular reference detected"⟩ hB h4

theorem C3_mutual_cycle_witness :
    evaluateCell 4 mutualSheet ['A', '1'] =
      some ⟨.null, some ⟨"CYCLE", "Circular reference detected"⟩⟩ :=
  (C3_mutual_cycle 0 mutualSheet ['A', '1'] ['B', '1'] (by decide)
    "=B1" "=A1" false false false false rfl rfl).1

/-- Claim C10 (implicit behavior): a reference from a formula to a stored
error cell evaluates to the scalar null — the referenced cell's error code
and message are not propagated (for any stored code and message), so the
referencing formula's own result carries no error. -/
theorem C10_error_ref_null (f : Nat) (s : SheetMap) (a b : Addr)
    (hab : a ≠ b) (msg : String) (code : ErrCode) (srcB : String)
    (acol arow : Bool) (ha : lookupCell s a = some (.error msg code))
    (hb : lookupCell s b = some (.formula srcB (.ref a acol arow))) :
    (∀ v : Visited, a ∉ v →
        evaluateCellRef s (f + 1) a v = .ok (.null, addVisited v a)) ∧
    evaluateCell (f + 2) s b = some ⟨.null, none⟩ := by
  constructor
  · intro v hv
    exact evaluateCellRef_error_cell s f a v msg code hv ha
  · have hmem : a ∉ [b] := by simp [hab]
    have h1 := evaluateCellRef_error_cell s f a [b] msg code hmem ha
    have h2 := evaluateAst_ref_ok s (f + 1) a [b] acol arow .null _ h1
    exact evaluateCell_formula_ok (f + 2) s b srcB _ .null _ hb h2

theorem C10_error_ref_null_witness :
    evaluateCell 2 errorRefSheet ['B', '1'] = some ⟨.null, none⟩ :=
  (C10_error_ref_null 0 errorRefSheet ['A', '1'] ['B', '1'] (by decide)
    "bad" .PARSE "=A1" false false rfl rfl).2

theorem truthyExpr_iff (cond : CellValue) :
    (jsTruthy cond && !(cond = CellValue.num 0 : Bool) &&
      !(cond = CellValue.str "" : Bool)) = true ↔
    (cond ≠ .null ∧ cond ≠ .bool false ∧ cond ≠ .num 0 ∧
      cond ≠ .str "") := by
  cases cond <;> simp [jsTruthy]

theorem evaluateFunction_IF_arity (s : SheetMap) (f : Nat)
    (args : List FormulaAst) (v : Visited) (h : args.length ≠ 3) :
    evaluateFunction s (f + 1) "IF" args v =
      .error (.js ⟨none, "IF requires exactly 3 arguments"⟩) := by
  rcases args with _ | ⟨c, _ | ⟨a, _ | ⟨b, _ | ⟨d, rest⟩⟩⟩⟩ <;>
    first
    | rfl
    | exact absurd rfl h

theorem evaluateFunction_IF3 (s : SheetMap) (f : Nat) (c a b : FormulaAst)
    (v : Visited) :
    evaluateFunction s (f + 1) "IF" [c, a, b] v =
      (match evaluateAst s f c v with
       | .ok (cv, v1) =>
         (match ensureScalar "IF condition" cv with
          | .ok condition =>
            (match evaluateAst s f
                (if jsTruthy condition &&
                    !(condition = CellValue.num 0 : Bool) &&
                    !(condition = CellValue.str "" : Bool) then a else b)
                v1 with
             | .ok (bv, v2) =>
               (match ensureScalar "IF branch result" bv with
                | .ok val => Except.ok (val, v2)
                | .error e => Except.error e)
             | .error e => Except.error e)
          | .error e => Except.error e)
       | .error e => Except.error e) := rfl

/-- Claim C6 (amended): for an `IF` call with exactly 3 arguments the
condition is evaluated, the second argument is selected when the condition
is truthy — not null, not `false`, not 0, not the empty string — and the
third otherwise; the selected argument's scalar value is returned, and the
unselected argument is never evaluated (replacing it changes nothing); a
call with any other argument count fails, surfacing at `evaluateCell` as an
`EVAL`-coded result. -/
theorem C6_if_semantics (f : Nat) (s : SheetMap) (c a b : FormulaAst)
    (v v1 : Visited) (cond : CellValue)
    (hc : evaluateAst s f c v = .ok (.inl cond, v1)) :
    ((cond ≠ .null ∧ cond ≠ .bool false ∧ cond ≠ .num 0 ∧ cond ≠ .str "") →
      (∀ (bv : CellValue) (v2 : Visited),
          evaluateAst s f a v1 = .ok (.inl bv, v2) →
          evaluateFunction s (f + 1) "IF" [c, a, b] v = .ok (bv, v2)) ∧
      ∀ b' : FormulaAst,
        evaluateFunction s (f + 1) "IF" [c, a, b'] v =
          evaluateFunction s (f + 1) "IF" [c, a, b] v) ∧
    (¬ (cond ≠ .null ∧ cond ≠ .bool false ∧ cond ≠ .num 0 ∧
        cond ≠ .str "") →
      (∀ (bv : CellValue) (v2 : Visited),
          evaluateAst s f b v1 = .ok (.inl bv, v2) →
          evaluateFunction s (f + 1) "IF" [c, a, b] v = .ok (bv, v2)) ∧
      ∀ a' : FormulaAst,
        evaluateFunction s (f + 1) "IF" [c, a', b] v =
          evaluateFunction s (f + 1) "IF" [c, a, b] v) ∧
    (∀ args : List FormulaAst, args.length ≠ 3 →
      ∀ (s2 : SheetMap) (addr : Addr) (src : String) (fuel : Nat),
        lookupCell s2 addr = some (.formula src (.func "IF" args)) →
        evaluateCell (fuel + 2) s2 addr =
          some ⟨.null, some ⟨"EVAL", "IF requires exactly 3 arguments"⟩⟩) := by
  have key : ∀ x y : FormulaAst,
      evaluateFunction s (f + 1) "IF" [c, x, y] v =
        (match evaluateAst s f
            (if jsTruthy cond && !(cond = CellValue.num 0 : Bool) &&
                !(cond = CellValue.str "" : Bool) then x else y) v1 with
         | .ok (bv, v2) =>
           (match ensureScalar "IF branch result" bv with
            | .ok val => Except.ok (val, v2)
            | .error e => .error e)
         | .error e => .error e) := by
    intro x y
    rw [evaluateFunction_IF3, hc]
    rfl
  refine ⟨?_, ?_, ?_⟩
  · intro hp
    have htr := (truthyExpr_iff cond).2 hp
    constructor
    · intro bv v2 hb
      rw [key a b, htr]
      simp only [if_true, hb, ensureScalar]
    · intro b'
      rw [key a b', key a b, htr]
      simp
  · intro hp
    have hf : (jsTruthy cond && !(cond = CellValue.num 0 : Bool) &&
        !(cond = CellValue.str "" : Bool)) = false := by
      cases h : (jsTruthy cond && !(cond = CellValue.num 0 : Bool) &&
          !(cond = CellValue.str "" : Bool)) with
      | false => rfl
      | true => exact absurd ((truthyExpr_iff cond).1 h) hp
    constructor
    · intro bv v2 hb
      rw [key a b, hf]
      simp only [if_false, hb, ensureScalar, Bool.false_eq_true]
    · intro a'
      rw [key a' b, key a b, hf]
      simp
  · intro args hlen s2 addr src fuel hcell
    have h1 := evaluateFunction_IF_arity s2 fuel args [addr] hlen
    have h2 := evaluateAst_func_error s2 (fuel + 1) "IF" args [addr] _ h1
    exact evaluateCell_formula_jsError (fuel + 2) s2 addr src _
      ⟨none, "IF requires exactly 3 arguments"⟩ hcell h2

/-- Claim C6 counterexample: in `=IF(1>2,1,2)` the condition evaluates to
the boolean `false`, which is neither null, nor 0, nor the empty string, so
under the claim's truthiness wording the second argument (`1`) would be
selected — but the code treats `false` as falsy and returns `2`. -/
theorem C6_if_truthiness_counterexample :
    evaluateCell 10 ifFalseSheet ['A', '1'] = some ⟨.num 2, none⟩ ∧
    ¬ evaluateCell 10 ifFalseSheet ['A', '1'] = some ⟨.num 1, none⟩ := by
  decide

theorem C6_if_semantics_witness :
    evaluateFunction [] 2 "IF"
      [.bool true, .num 1, .num 2] [] = .ok (.num 1, []) := by
  have h := ((C6_if_semantics 1 [] (.bool true) (.num 1) (.num 2) [] []
    (.bool true) rfl).1 (by refine ⟨?_, ?_, ?_, ?_⟩ <;> decide)).1
  exact h (.num 1) [] rfl

theorem C9_adjustReference_amended_witness :
    ∃ s, formatAddress 2 0 false false = some s ∧
      adjustReference s ⟨none, some 0⟩ ⟨some 0, none⟩ ⟨false, false⟩ =
        (if (false : Bool) || (false : Bool) then none
         else formatAddress (shiftDel none (shiftIns (some 0) 2))
           (shiftDel (some 0) (shiftIns none 0)) false false) :=
  C9_adjustReference_amended 2 0 (by norm_num) (by norm_num)
    ⟨none, some 0⟩ ⟨some 0, none⟩ ⟨false, false⟩ (by norm_num) (by norm_num)
    (by norm_num) (by norm_num)

/-! ### Lemmas about the dependency graph maps -/

theorem mem_setAdd {l : List Addr} {v x : Addr} :
    x ∈ setAdd l v ↔ x ∈ l ∨ x = v := by
  unfold setAdd
  split
  · rename_i hv
    constructor
    · exact fun hx => Or.inl hx
    · rintro (hx | rfl)
      · exact hx
      · exact hv
  · simp [List.mem_append]

theorem setAdd_nodup {l : List Addr} (v : Addr) (h : l.Nodup) :
    (setAdd l v).Nodup := by
  unfold setAdd
  split
  · exact h
  · rename_i hv
    simp [List.nodup_append, h, hv]

theorem mapGet_cons (k' : Addr) (s : List Addr)
    (rest : List (Addr × List Addr)) (k : Addr) :
    mapGet ((k', s) :: rest) k = if k' = k then s else mapGet rest k := by
  unfold mapGet
  rw [List.find?_cons]
  by_cases h : k' = k
  · simp [h]
  · simp [h]

theorem mapGet_not_mem_keys {m : List (Addr × List Addr)} {k : Addr}
    (h : k ∉ m.map (·.1)) : mapGet m k = [] := by
  induction m with
  | nil => rfl
  | cons p rest ih =>
    rcases p with ⟨k', s⟩
    simp only [List.map_cons, List.mem_cons, not_or] at h
    rw [mapGet_cons, if_neg (fun he => h.1 he.symm)]
    exact ih h.2

theorem mapGet_mapSetAdd (m : List (Addr × List Addr)) (k v k' : Addr) :
    mapGet (mapSetAdd m k v) k' =
      if k' = k then setAdd (mapGet m k) v else mapGet m k' := by
  induction m with
  | nil =>
    simp only [mapSetAdd]
    by_cases h : k' = k
    · rw [if_pos h, mapGet_cons, if_pos h.symm]
      rfl
    · rw [mapGet_cons, if_neg (fun he => h he.symm), if_neg h]
  | cons p rest ih =>
    rcases p with ⟨k'', s⟩
    simp only [mapSetAdd]
    by_cases h1 : k'' = k
    · rw [if_pos h1]
      by_cases h2 : k' = k
      · rw [if_pos h2, mapGet_cons, if_pos (h1.trans h2.symm),
          mapGet_cons, if_pos h1]
      · have hne : ¬ k'' = k' := fun he => h2 (he.symm.trans h1)
        rw [if_neg h2, mapGet_cons, if_neg hne, mapGet_cons, if_neg hne]
    · rw [if_neg h1, mapGet_cons]
      by_cases h2 : k'' = k'
      · have hne : ¬ k' = k := fun he => h1 (h2.trans he)
        rw [if_pos h2, if_neg hne, mapGet_cons, if_pos h2]
      · rw [if_neg h2, ih]
        by_cases h3 : k' = k
        · rw [if_pos h3, if_pos h3, mapGet_cons, if_neg h1]
        · rw [if_neg h3, if_neg h3, mapGet_cons, if_neg h2]

theorem mapSetAdd_keys (m : List (Addr × List Addr)) (k v : Addr) :
    (mapSetAdd m k v).map (·.1) =
      if k ∈ m.map (·.1) then m.map (·.1) else m.map (·.1) ++ [k] := by
  induction m with
  | nil => simp [mapSetAdd]
  | cons p rest ih =>
    rcases p with ⟨k'', s⟩
    simp only [mapSetAdd]
    by_cases h1 : k'' = k
    · have hmem : k ∈ ((k'', s) :: rest).map (·.1) := by
        simp [h1.symm]
      rw [if_pos h1, if_pos hmem]
      simp
    · have hkk : ¬ k = k'' := fun he => h1 he.symm
      rw [if_neg h1]
      simp only [List.map_cons, ih]
      by_cases h2 : k ∈ rest.map (·.1)
      · rw [if_pos h2, if_pos (by simp [h2])]
      · rw [if_neg h2, if_neg (by simp [hkk, h2]), List.cons_append]

theorem keysNodup_mapSetAdd {m : List (Addr × List Addr)}
    (h : KeysNodup m) (k v : Addr) : KeysNodup (mapSetAdd m k v) := by
  unfold KeysNodup at *
  rw [mapSetAdd_keys]
  split
  · exact h
  · rename_i hk
    simp [List.nodup_append, h, hk]

theorem valsNodup_mapSetAdd {m : List (Addr × List Addr)}
    (h : ValsNodup m) (k v : Addr) : ValsNodup (mapSetAdd m k v) := by
  induction m with
  | nil =>
    intro p hp
    simp only [mapSetAdd, List.mem_singleton] at hp
    subst hp
    simp
  | cons q rest ih =>
    rcases q with ⟨k'', s⟩
    have hs : s.Nodup := h ⟨k'', s⟩ (by simp)
    have hrest : ValsNodup rest := fun p hp => h p (by simp [hp])
    intro p hp
    simp only [mapSetAdd] at hp
    split at hp
    · rcases List.mem_cons.1 hp with h1 | h1
      · subst h1
        exact setAdd_nodup v hs
      · exact hrest p h1
    · rcases List.mem_cons.1 hp with h1 | h1
      · subst h1
        exact hs
      · exact ih hrest p h1

theorem mapGet_mapSetDelete (m : List (Addr × List Addr)) (k v k' : Addr) :
    mapGet (mapSetDelete m k v) k' =
      if k' = k then (mapGet m k).erase v else mapGet m k' := by
  induction m with
  | nil =>
    by_cases h : k' = k <;> simp [mapSetDelete, mapGet, h]
  | cons p rest ih =>
    rcases p with ⟨k'', s⟩
    simp only [mapSetDelete]
    by_cases h1 : k'' = k
    · rw [if_pos h1]
      by_cases h2 : k' = k
      · rw [if_pos h2, mapGet_cons, if_pos (h1.trans h2.symm),
          mapGet_cons, if_pos h1]
      · have hne : ¬ k'' = k' := fun he => h2 (he.symm.trans h1)
        rw [if_neg h2, mapGet_cons, if_neg hne, mapGet_cons, if_neg hne]
    · rw [if_neg h1, mapGet_cons]
      by_cases h2 : k'' = k'
      · have hne : ¬ k' = k := fun he => h1 (h2.trans he)
        rw [if_pos h2, if_neg hne, mapGet_cons, if_pos h2]
      · rw [if_neg h2, ih]
        by_cases h3 : k' = k
        · rw [if_pos h3, if_pos h3, mapGet_cons, if_neg h1]
        · rw [if_neg h3, if_neg h3, mapGet_cons, if_neg h2]

theorem mapSetDelete_keys (m : List (Addr × List Addr)) (k v : Addr) :
    (mapSetDelete m k v).map (·.1) = m.map (·.1) := by
  induction m with
  | nil => rfl
  | cons p rest ih =>
    rcases p with ⟨k'', s⟩
    simp only [mapSetDelete]
    split <;> simp [ih]

theorem valsNodup_mapSetDelete {m : List (Addr × List Addr)}
    (h : ValsNodup m) (k v : Addr) : ValsNodup (mapSetDelete m k v) := by
  induction m with
  | nil => intro p hp; cases hp
  | cons q rest ih =>
    rcases q with ⟨k'', s⟩
    have hs : s.Nodup := h ⟨k'', s⟩ (by simp)
    have hrest : ValsNodup rest := fun p hp => h p (by simp [hp])
    intro p hp
    simp only [mapSetDelete] at hp
    split at hp
    · rcases List.mem_cons.1 hp with h1 | h1
      · subst h1
        exact hs.erase v
      · exact hrest p h1
    · rcases List.mem_cons.1 hp with h1 | h1
      · subst h1
        exact hs
      · exact ih hrest p h1

theorem mapDeleteKey_keys_sublist (m : List (Addr × List Addr)) (k : Addr) :
    ((mapDeleteKey m k).map (·.1)).Sublist (m.map (·.1)) := by
  induction m with
  | nil => simp [mapDeleteKey]
  | cons p rest ih =>
    rcases p with ⟨k'', s⟩
    simp only [mapDeleteKey]
    split
    · exact (List.sublist_cons_self _ _)
    · simpa using ih.cons₂ k''

theorem keysNodup_mapDeleteKey {m : List (Addr × List Addr)}
    (h : KeysNodup m) (k : Addr) : KeysNodup (mapDeleteKey m k) :=
  (mapDeleteKey_keys_sublist m k).nodup h

theorem valsNodup_mapDeleteKey {m : List (Addr × List Addr)}
    (h : ValsNodup m) (k : Addr) : ValsNodup (mapDeleteKey m k) := by
  induction m with
  | nil => intro p hp; cases hp
  | cons q rest ih =>
    rcases q with ⟨k'', s⟩
    have hrest : ValsNodup rest := fun p hp => h p (by simp [hp])
    intro p hp
    simp only [mapDeleteKey] at hp
    split at hp
    · exact hrest p hp
    · rcases List.mem_cons.1 hp with h1 | h1
      · subst h1
        exact h ⟨k'', s⟩ (by simp)
      · exact ih hrest p h1

theorem mapGet_mapDeleteKey {m : List (Addr × List Addr)}
    (hm : KeysNodup m) (k k' : Addr) :
    mapGet (mapDeleteKey m k) k' = if k' = k then [] else mapGet m k' := by
  induction m with
  | nil => by_cases h : k' = k <;> simp [mapDeleteKey, mapGet, h]
  | cons p rest ih =>
    rcases p with ⟨k'', s⟩
    have hk'' : k'' ∉ rest.map (·.1) := by
      have := (List.nodup_cons.1 hm).1
      simpa using this
    have hrest : KeysNodup rest := (List.nodup_cons.1 hm).2
    simp only [mapDeleteKey]
    split
    · rename_i heq
      subst heq
      by_cases h2 : k' = k''
      · subst h2
        rw [if_pos rfl]
        exact mapGet_not_mem_keys hk''
      · rw [if_neg h2, mapGet_cons, if_neg (fun he => h2 he.symm)]
    · rename_i hne
      by_cases h2 : k'' = k'
      · rw [mapGet_cons, if_pos h2,
          if_neg (fun he : k' = k => hne (h2.trans he)),
          mapGet_cons, if_pos h2]
      · by_cases h3 : k' = k
        · subst h3
          rw [mapGet_cons, if_neg h2, ih hrest, if_pos rfl, if_pos rfl]
        · rw [mapGet_cons, if_neg h2, ih hrest, if_neg h3, if_neg h3,
            mapGet_cons, if_neg h2]

theorem mapGet_valsNodup {m : List (Addr × List Addr)} (h : ValsNodup m)
    (k : Addr) : (mapGet m k).Nodup := by
  unfold mapGet
  cases hf : m.find? (fun p => p.1 = k) with
  | none => simp
  | some p =>
    exact h p (List.mem_of_find?_eq_some hf)

theorem mapGet_foldDelete (ds : List Addr) (m : List (Addr × List Addr))
    (cell k' : Addr) (hnd : ds.Nodup) :
    mapGet (ds.foldl (fun mm dep => mapSetDelete mm dep cell) m) k' =
      if k' ∈ ds then (mapGet m k').erase cell else mapGet m k' := by
  induction ds generalizing m with
  | nil => simp
  | cons d rest ih =>
    have hd : d ∉ rest := (List.nodup_cons.1 hnd).1
    have hrest : rest.Nodup := (List.nodup_cons.1 hnd).2
    rw [List.foldl_cons, ih (mapSetDelete m d cell) hrest]
    by_cases h1 : k' ∈ rest
    · have h2 : ¬ k' = d := fun he => hd (he ▸ h1)
      rw [if_pos h1, mapGet_mapSetDelete, if_neg h2,
        if_pos (by simp [h1] : k' ∈ d :: rest)]
    · rw [if_neg h1, mapGet_mapSetDelete]
      by_cases h2 : k' = d
      · subst h2
        rw [if_pos rfl, if_pos (by simp)]
      · rw [if_neg h2, if_neg (by simp [h1, h2])]

theorem foldDelete_keys (ds : List Addr) (m : List (Addr × List Addr))
    (cell : Addr) :
    (ds.foldl (fun mm dep => mapSetDelete mm dep cell) m).map (·.1) =
      m.map (·.1) := by
  induction ds generalizing m with
  | nil => rfl
  | cons d rest ih => rw [List.foldl_cons, ih, mapSetDelete_keys]

theorem foldDelete_valsNodup (ds : List Addr)
    {m : List (Addr × List Addr)} (h : ValsNodup m) (cell : Addr) :
    ValsNodup (ds.foldl (fun mm dep => mapSetDelete mm dep cell) m) := by
  induction ds generalizing m with
  | nil => exact h
  | cons d rest ih =>
    rw [List.foldl_cons]
    exact ih (valsNodup_mapSetDelete h d cell)

theorem graphInv_empty : GraphInv emptyGraph := by
  refine ⟨by simp [KeysNodup, emptyGraph], by simp [KeysNodup, emptyGraph],
    ?_, ?_, ?_⟩
  · intro p hp; cases hp
  · intro p hp; cases hp
  · intro a b
    simp [mapGet, emptyGraph]

theorem graphInv_add {g : DependencyGraph} (h : GraphInv g)
    (fromCell toCell : Addr) :
    GraphInv (addDependency g fromCell toCell) := by
  obtain ⟨hk1, hk2, hv1, hv2, hiff⟩ := h
  refine ⟨keysNodup_mapSetAdd hk1 _ _, keysNodup_mapSetAdd hk2 _ _,
    valsNodup_mapSetAdd hv1 _ _, valsNodup_mapSetAdd hv2 _ _, ?_⟩
  intro a b
  show b ∈ mapGet (mapSetAdd g.dependencies fromCell toCell) a ↔
    a ∈ mapGet (mapSetAdd g.dependents toCell fromCell) b
  rw [mapGet_mapSetAdd, mapGet_mapSetAdd]
  by_cases h1 : a = fromCell
  · by_cases h2 : b = toCell
    · rw [if_pos h1, if_pos h2, h1, h2]
      simp [mem_setAdd]
    · rw [if_pos h1, if_neg h2, h1]
      constructor
      · intro hx
        rcases mem_setAdd.1 hx with hx' | hx'
        · exact (hiff fromCell b).1 hx'
        · exact absurd hx' h2
      · exact fun hx => mem_setAdd.2 (Or.inl ((hiff fromCell b).2 hx))
  · by_cases h2 : b = toCell
    · rw [if_neg h1, if_pos h2, h2]
      constructor
      · exact fun hx => mem_setAdd.2 (Or.inl ((hiff a toCell).1 hx))
      · intro hx
        rcases mem_setAdd.1 hx with hx' | hx'
        · exact (hiff a toCell).2 hx'
        · exact absurd hx' h1
    · rw [if_neg h1, if_neg h2]
      exact hiff a b

theorem graphInv_remove {g : DependencyGraph} (h : GraphInv g)
    (cell : Addr) : GraphInv (removeDependencies g cell) := by
  obtain ⟨hk1, hk2, hv1, hv2, hiff⟩ := h
  have hdsnd : (mapGet g.dependencies cell).Nodup := mapGet_valsNodup hv1 cell
  refine ⟨keysNodup_mapDeleteKey hk1 _, ?_, valsNodup_mapDeleteKey hv1 _,
    foldDelete_valsNodup _ hv2 _, ?_⟩
  · show KeysNodup ((mapGet g.dependencies cell).foldl
      (fun m dep => mapSetDelete m dep cell) g.dependents)
    unfold KeysNodup
    rw [foldDelete_keys]
    exact hk2
  · intro a b
    show b ∈ mapGet (mapDeleteKey g.dependencies cell) a ↔
      a ∈ mapGet ((mapGet g.dependencies cell).foldl
        (fun m dep => mapSetDelete m dep cell) g.dependents) b
    rw [mapGet_mapDeleteKey hk1, mapGet_foldDelete _ _ _ _ hdsnd]
    by_cases h1 : a = cell
    · subst h1
      rw [if_pos rfl]
      simp only [List.not_mem_nil, false_iff]
      split_ifs with hb
      · intro hmem
        exact absurd ((List.Nodup.mem_erase_iff
          (mapGet_valsNodup hv2 b)).1 hmem).1 (by simp)
      · exact fun hmem => hb ((hiff a b).2 hmem)
    · rw [if_neg h1]
      split_ifs with hb
      · rw [List.Nodup.mem_erase_iff (mapGet_valsNodup hv2 b)]
        constructor
        · exact fun hx => ⟨h1, (hiff a b).1 hx⟩
        · exact fun hx => (hiff a b).2 hx.2
      · exact hiff a b

theorem graphInv_run (ops : List GraphOp) : GraphInv (runOps ops) := by
  unfold runOps
  have hstep : ∀ g, GraphInv g → GraphInv (ops.foldl applyOp g) := by
    induction ops with
    | nil => exact fun g h => h
    | cons op rest ih =>
      intro g h
      rw [List.foldl_cons]
      refine ih _ ?_
      cases op with
      | add fromCell toCell => exact graphInv_add h fromCell toCell
      | remove cell => exact graphInv_remove h cell
  exact hstep emptyGraph graphInv_empty

/-! ### Lemmas about `getEvaluationOrder` -/

theorem filter_sublist_of_imp (U : List Addr) (p q : Addr → Bool)
    (h : ∀ a, p a = true → q a = true) : (U.filter p).Sublist (U.filter q) := by
  induction U with
  | nil => simp
  | cons a rest ih =>
    simp only [List.filter_cons]
    cases hp : p a with
    | true =>
      rw [h a hp]
      exact ih.cons₂ a
    | false =>
      cases hq : q a with
      | true => exact ih.cons a
      | false => exact ih

theorem mu_mono (U : List Addr) {v v' : List Addr}
    (h : ∀ x ∈ v, x ∈ v') :
    (U.filter (· ∉ v')).length ≤ (U.filter (· ∉ v)).length :=
  (filter_sublist_of_imp U _ _ (fun a ha => by
    simp only [decide_eq_true_eq] at ha ⊢
    exact fun hav => ha (h a hav))).length_le

theorem mu_strict (U : List Addr) {v : List Addr} {cell : Addr}
    (hU : cell ∈ U) (hv : cell ∉ v) :
    (U.filter (· ∉ v ++ [cell])).length < (U.filter (· ∉ v)).length := by
  have hsub : (U.filter (· ∉ v ++ [cell])).Sublist (U.filter (· ∉ v)) := by
    refine filter_sublist_of_imp U _ _ (fun a ha => ?_)
    simp only [decide_eq_true_eq, List.mem_append, List.mem_singleton,
      not_or] at ha ⊢
    exact ha.1
  rcases Nat.lt_or_ge (U.filter (· ∉ v ++ [cell])).length
      (U.filter (· ∉ v)).length with hlt | hge
  · exact hlt
  · exfalso
    have heq := hsub.eq_of_length (Nat.le_antisymm hsub.length_le hge)
    have h1 : cell ∈ U.filter (· ∉ v) := by
      simp [List.mem_filter, hU, hv]
    have h2 : cell ∉ U.filter (· ∉ v ++ [cell]) := by
      simp [List.mem_filter]
    rw [heq] at h2
    exact h2 h1

theorem getDeps_subset_universe (g : DependencyGraph) (cells : List Addr) :
    ∀ c, ∀ d ∈ getDependencies g c, d ∈ graphUniverse g cells := by
  intro c d hd
  unfold getDependencies mapGet at hd
  cases hf : g.dependencies.find? (fun p => p.1 = c) with
  | none => rw [hf] at hd; cases hd
  | some p =>
    rw [hf] at hd
    simp only [Option.map, Option.getD] at hd
    have hp : p ∈ g.dependencies := List.mem_of_find?_eq_some hf
    have : d ∈ (g.dependencies.map (·.2)).flatten :=
      List.mem_flatten.2 ⟨p.2, List.mem_map.2 ⟨p, hp, rfl⟩, hd⟩
    unfold graphUniverse
    rw [List.mem_dedup]
    simp [this]

theorem roots_subset_universe (g : DependencyGraph) (cells : List Addr) :
    ∀ c ∈ cells, c ∈ graphUniverse g cells := by
  intro c hc
  unfold graphUniverse
  rw [List.mem_dedup]
  simp [hc]

theorem succL_of_succF (g : DependencyGraph) (U : List Addr) (f : Nat)
    (hF : SuccF g U f) : SuccL g U f := by
  intro ds
  induction ds with
  | nil =>
    intro v r _ _
    exact ⟨v, r, by simp [visitList], fun x h => h, fun x h => Or.inl h⟩
  | cons d rest ih =>
    intro v r hds hmu
    obtain ⟨v1, r1, he1, hsub1, hnew1⟩ := hF d v r (hds d (by simp)) hmu
    obtain ⟨v2, r2, he2, hsub2, hnew2⟩ := ih v1 r1
      (fun d' hd' => hds d' (by simp [hd']))
      (Nat.lt_of_le_of_lt (mu_mono U hsub1) hmu)
    refine ⟨v2, r2, ?_, fun x hx => hsub2 x (hsub1 x hx), fun x hx => ?_⟩
    · simp only [visitList, he1]
      exact he2
    · rcases hnew2 x hx with h | h
      · rcases hnew1 x h with h' | h'
        · exact Or.inl h'
        · exact Or.inr h'
      · exact Or.inr h

theorem succF_all (g : DependencyGraph) (U : List Addr)
    (hclo : ∀ c, ∀ d ∈ getDependencies g c, d ∈ U) :
    ∀ f, SuccF g U f := by
  intro f
  induction f with
  | zero =>
    intro cell v r _ hmu
    exact absurd hmu (Nat.not_lt_zero _)
  | succ f ih =>
    intro cell v r hc hmu
    by_cases hv : cell ∈ v
    · exact ⟨v, r, by simp [visitFuel, hv], fun x h => h,
        fun x h => Or.inl h⟩
    · have hL := succL_of_succF g U f ih
      have hcf : cell ∈ U.filter (· ∉ v) := by
        simp [List.mem_filter, hc, hv]
      have hmu' : (U.filter (· ∉ v ++ [cell])).length < f := by
        have h1 := mu_strict U hc hv
        have h2 : 1 ≤ (U.filter (· ∉ v)).length :=
          List.length_pos.2 (fun he => by rw [he] at hcf; cases hcf)
        omega
      obtain ⟨v2, r2, he, hsub, hnew⟩ :=
        hL (getDependencies g cell) (v ++ [cell]) r (hclo cell) hmu'
      refine ⟨v2, r2 ++ [cell], ?_, ?_, ?_⟩
      · simp only [visitFuel, if_neg hv]
        rw [he]
      · intro x hx
        exact hsub x (by simp [hx])
      · intro x hx
        rcases hnew x hx with h | h
        · rcases List.mem_append.1 h with h' | h'
          · exact Or.inl h'
          · simp only [List.mem_singleton] at h'
            subst h'
            exact Or.inr hc
        · exact Or.inr h

theorem getEvaluationOrder_some (g : DependencyGraph) (cells : List Addr) :
    ∃ ord, getEvaluationOrder g cells = some ord := by
  have hF := succF_all g (graphUniverse g cells)
    (getDeps_subset_universe g cells) (graphFuel g cells)
  have hL := succL_of_succF g (graphUniverse g cells) (graphFuel g cells) hF
  have hmu0 : ((graphUniverse g cells).filter
      (· ∉ ([] : List Addr))).length < graphFuel g cells := by
    unfold graphFuel
    have : (graphUniverse g cells).filter (· ∉ ([] : List Addr)) =
        graphUniverse g cells := by
      simp
    rw [this]
    omega
  obtain ⟨v', r', he, _, _⟩ :=
    hL cells [] [] (roots_subset_universe g cells) hmu0
  refine ⟨r', ?_⟩
  unfold getEvaluationOrder
  rw [he]
  rfl

theorem topoOK_nil (g : DependencyGraph) : topoOK g [] := by
  intro i hi
  cases hi

theorem topoOK_snoc (g : DependencyGraph) {r : List Addr} {cell : Addr}
    (h : topoOK g r) (hdeps : ∀ d ∈ getDependencies g cell, d ∈ r) :
    topoOK g (r ++ [cell]) := by
  intro i hi d hd
  rw [List.length_append, List.length_singleton] at hi
  by_cases hlt : i < r.length
  · rw [List.getD_append _ _ _ _ hlt] at hd
    have := h i hlt d hd
    rw [List.take_append_eq_append_take,
      Nat.sub_eq_zero_of_le (Nat.le_of_lt hlt), List.take_zero,
      List.append_nil]
    exact this
  · have hieq : i = r.length := by omega
    subst hieq
    rw [List.getD_append_right _ _ _ _ (Nat.le_refl _), Nat.sub_self] at hd
    simp only [List.getD_cons_zero] at hd
    rw [List.take_append_eq_append_take, Nat.sub_self, List.take_zero,
      List.append_nil, List.take_of_length_le (Nat.le_refl _)]
    exact hdeps d hd

theorem invL_of_invF (g : DependencyGraph) (roots : List Addr)
    (rank : Addr → Nat) (f : Nat) (hF : InvF g roots rank f) :
    InvL g roots rank f := by
  intro ds
  induction ds with
  | nil =>
    intro v r v' r' he _ _ hrv hnd htopo _
    simp only [visitList] at he
    obtain ⟨hv', hr'⟩ : v = v' ∧ r = r' := by
      constructor <;> [exact congrArg Prod.fst (Option.some.inj he);
        exact congrArg Prod.snd (Option.some.inj he)]
    subst hv'
    subst hr'
    exact ⟨⟨[], by simp, by simp⟩, fun x h => h, fun x h => by
      rename_i hv _; exact hv x h, hrv, hnd, htopo,
      fun x hx hnr => ⟨hx, hnr⟩, by simp⟩
  | cons d rest ih =>
    intro v r v' r' he hds hv hrv hnd htopo hstack
    simp only [visitList] at he
    cases hstep : visitFuel g f d (v, r) with
    | none => rw [hstep] at he; cases he
    | some st1 =>
      rcases st1 with ⟨v1, r1⟩
      rw [hstep] at he
      obtain ⟨⟨Δ1, hr1, hfresh1⟩, hsub1, hreach1, hrv1, hnd1, htopo1,
        hback1, hd1⟩ :=
        hF d v r v1 r1 hstep (hds d (by simp)) hv hrv hnd htopo
          (fun x hx hnr => hstack d (by simp) x hx hnr)
      obtain ⟨⟨Δ2, hr2, hfresh2⟩, hsub2, hreach2, hrv2, hnd2, htopo2,
        hback2, hds2⟩ :=
        ih v1 r1 v' r' he (fun d' hd' => hds d' (by simp [hd'])) hreach1
          hrv1 hnd1 htopo1
          (fun d' hd' x hx hnr =>
            have hxv := hback1 x hx hnr
            hstack d' (by simp [hd']) x hxv.1 hxv.2)
      refine ⟨⟨Δ1 ++ Δ2, ?_, ?_⟩, fun x hx => hsub2 x (hsub1 x hx),
        hreach2, hrv2, hnd2, htopo2,
        fun x hx hnr =>
          have h1 := hback2 x hx hnr
          hback1 x h1.1 h1.2,
        ?_⟩
      · rw [hr2, hr1, List.append_assoc]
      · intro x hx
        rcases List.mem_append.1 hx with h | h
        · exact hfresh1 x h
        · intro hxv
          exact hfresh2 x h (hsub1 x hxv)
      · intro d' hd'
        rcases List.mem_cons.1 hd' with h | h
        · subst h
          rw [hr2]
          exact List.mem_append.2 (Or.inl hd1)
        · exact hds2 d' h

theorem invF_all (g : DependencyGraph) (roots : List Addr)
    (rank : Addr → Nat)
    (hacyc : ∀ a, Reach g roots a → ∀ b ∈ getDependencies g a,
      rank b < rank a) :
    ∀ f, InvF g roots rank f := by
  intro f
  induction f with
  | zero =>
    intro cell v r v' r' he
    simp only [visitFuel] at he
    cases he
  | succ f ihf =>
    intro cell v r v' r' he hreach hv hrv hnd htopo hstack
    simp only [visitFuel] at he
    by_cases hcell : cell ∈ v
    · rw [if_pos hcell] at he
      obtain ⟨hv', hr'⟩ : v = v' ∧ r = r' := by
        constructor <;> [exact congrArg Prod.fst (Option.some.inj he);
          exact congrArg Prod.snd (Option.some.inj he)]
      subst hv'
      subst hr'
      have hcr : cell ∈ r := by
        by_contra hcr
        exact Nat.lt_irrefl _ (hstack cell hcell hcr)
      exact ⟨⟨[], by simp, by simp⟩, fun x h => h, hv, hrv, hnd, htopo,
        fun x hx hnr => ⟨hx, hnr⟩, hcr⟩
    · rw [if_neg hcell] at he
      cases hls : visitList g f (getDependencies g cell)
          (v ++ [cell], r) with
      | none =>
        rw [hls] at he
        cases he
      | some st2 =>
        rcases st2 with ⟨v2, r2⟩
        rw [hls] at he
        obtain ⟨hv', hr'⟩ : v2 = v' ∧ r2 ++ [cell] = r' := by
          constructor <;> [exact congrArg Prod.fst (Option.some.inj he);
            exact congrArg Prod.snd (Option.some.inj he)]
        subst hv'
        subst hr'
        have hvcell : ∀ x ∈ v ++ [cell], Reach g roots x := by
          intro x hx
          rcases List.mem_append.1 hx with h | h
          · exact hv x h
          · simp only [List.mem_singleton] at h
            subst h
            exact hreach
        obtain ⟨⟨Δ1, hr2, hfresh1⟩, hsub1, hreach1, hrv1, hnd1, htopo1,
          hback1, hds1⟩ :=
          invL_of_invF g roots rank f ihf (getDependencies g cell)
            (v ++ [cell]) r v2 r2 hls
            (fun d hd => Reach.step hreach hd)
            hvcell
            (fun x hx => by simp [hrv x hx])
            hnd htopo
            (fun d hd x hx hnr => by
              have hdc : rank d < rank cell := hacyc cell hreach d hd
              rcases List.mem_append.1 hx with h | h
              · exact Nat.lt_trans hdc (hstack x h hnr)
              · simp only [List.mem_singleton] at h
                subst h
                exact hdc)
        have hcellr2 : cell ∉ r2 := by
          rw [hr2]
          intro hmem
          rcases List.mem_append.1 hmem with h | h
          · exact hcell (hrv cell h)
          · exact hfresh1 cell h (by simp)
        refine ⟨⟨Δ1 ++ [cell], ?_, ?_⟩, ?_, hreach1, ?_, ?_, ?_, ?_, ?_⟩
        · rw [hr2, List.append_assoc]
        · intro x hx
          rcases List.mem_append.1 hx with h | h
          · intro hxv
            exact hfresh1 x h (by simp [hxv])
          · simp only [List.mem_singleton] at h
            subst h
            exact hcell
        · intro x hx
          exact hsub1 x (by simp [hx])
        · intro x hx
          rcases List.mem_append.1 hx with h | h
          · exact hrv1 x h
          · simp only [List.mem_singleton] at h
            rw [h]
            exact hsub1 cell (by simp)
        · rw [List.nodup_append]
          refine ⟨hnd1, List.nodup_singleton cell, ?_⟩
          intro x hx
          simp only [List.mem_singleton]
          intro hxc
          subst hxc
          exact hcellr2 hx
        · exact topoOK_snoc g htopo1 hds1
        · intro x hx hnr
          have hx1 : x ∉ r2 := fun hmem => hnr (by simp [hmem])
          have hx2 : x ≠ cell := fun hxc => hnr (by simp [hxc])
          have := hback1 x hx hx1
          rcases List.mem_append.1 this.1 with h | h
          · exact ⟨h, this.2⟩
          · simp only [List.mem_singleton] at h
            exact absurd h hx2
        · exact List.mem_append.2 (Or.inr (by simp))

/-- Claim C7: for every dependency graph whose `dependsOn` relation,
restricted to the cells reachable from the requested set, is acyclic
(witnessed by a rank function decreasing along reachable edges),
`getEvaluationOrder` returns a sequence in which every cell appears only
after all of its dependencies, each visited cell appears exactly once, and
every requested cell appears; moreover the pass never fails on any input,
cyclic graphs included. -/
theorem C7_evaluation_order (g : DependencyGraph) (cells : List Addr)
    (rank : Addr → Nat)
    (hacyc : ∀ a, Reach g cells a → ∀ b ∈ getDependencies g a,
      rank b < rank a) :
    (∃ ord, getEvaluationOrder g cells = some ord ∧ topoOK g ord ∧
      ord.Nodup ∧ ∀ c ∈ cells, c ∈ ord) ∧
    ∀ (g2 : DependencyGraph) (cells2 : List Addr),
      ∃ ord2, getEvaluationOrder g2 cells2 = some ord2 := by
  constructor
  · obtain ⟨ord, he⟩ := getEvaluationOrder_some g cells
    unfold getEvaluationOrder at he
    obtain ⟨⟨v', r'⟩, hvl, hpr⟩ := Option.map_eq_some'.1 he
    obtain ⟨_, _, _, _, hnd, htopo, _, hroots⟩ :=
      invL_of_invF g cells rank _ (invF_all g cells rank hacyc _)
        cells [] [] v' r' hvl
        (fun d hd => Reach.root hd)
        (fun x hx => absurd hx (List.not_mem_nil x))
        (fun x hx => absurd hx (List.not_mem_nil x))
        List.nodup_nil (topoOK_nil g)
        (fun d _ x hx => absurd hx (List.not_mem_nil x))
    have hor : r' = ord := hpr
    refine ⟨ord, ?_, hor ▸ htopo, hor ▸ hnd, hor ▸ hroots⟩
    unfold getEvaluationOrder
    rw [hvl]
    exact congrArg some hor
  · exact fun g2 cells2 => getEvaluationOrder_some g2 cells2

theorem C7_evaluation_order_witness :
    (∃ ord, getEvaluationOrder ⟨[], []⟩ [['A', '1']] = some ord ∧
      topoOK ⟨[], []⟩ ord ∧ ord.Nodup ∧
      ∀ c ∈ [(['A', '1'] : Addr)], c ∈ ord) ∧
    ∀ (g2 : DependencyGraph) (cells2 : List Addr),
      ∃ ord2, getEvaluationOrder g2 cells2 = some ord2 :=
  C7_evaluation_order ⟨[], []⟩ [['A', '1']] (fun _ => 0)
    (fun _ _ b hb => absurd hb (List.not_mem_nil b))

/-- Claim C8: starting from a freshly constructed `DependencyGraph`, after
any finite sequence of `addDependency` and `removeDependencies` calls the
two internal mappings are exact inverses: `b ∈ dependsOn[a]` if and only if
`a ∈ dependedOnBy[b]`. -/
theorem C8_graph_inverse (ops : List GraphOp) (a b : Addr) :
    b ∈ getDependencies (runOps ops) a ↔ a ∈ getDependents (runOps ops) b :=
  (graphInv_run ops).2.2.2.2 a b

end Sheets
